import Mathlib

/-!
Verification of the educational signals implementation (src/index.ts).

The embedding models the first (canonical) variant of the source file:
classes `State`, `Computed`, `Watcher`, the global scheduling watcher `w`
with its `pending` flag and microtask drain, `effect`, and `untrack`.

Computation functions are embedded as a small expression language `Expr`
whose reads go through the engine exactly as `State.get` / `Computed.get`
do in the source.  JavaScript `Set` objects are modelled as
insertion-ordered duplicate-free lists; the single global
`currentlyComputing` slot is the `ctx` field; staleness is stored as the
list `freshL` of computeds whose `#isStale` flag is currently `false`
(every computed starts stale, so the fresh list starts empty).
Recursion in the interpreter is bounded by explicit fuel; running out of
fuel models the stack overflow a cyclic computation would produce in the
host.  Ghost fields (`runs`, `cleanupRuns`, `notifies`) count computation
invocations, cleanup invocations and watcher notifications; they affect
nothing.
-/

namespace Signals

/-- A cell identity: a `State` (by state id) or a `Computed` (by computed id). -/
inductive Cell where
  | st (s : Nat)
  | cp (c : Nat)
deriving DecidableEq, Repr

/-- The embedded language of computation functions.  `readS`/`readC` go
through the engine's `get` logic (and hence register dependencies),
`untrack` runs its body with the tracking context suspended, `throwE`
models a thrown exception. -/
inductive Expr where
  | lit (n : Int)
  | readS (s : Nat)
  | readC (c : Nat)
  | add (a b : Expr)
  | mul (a b : Expr)
  | ifz (c t e : Expr)
  | untrack (e : Expr)
  | throwE
deriving DecidableEq, Repr

/-- Evaluation errors: a thrown user exception, or fuel exhaustion
(modelling unbounded recursion in the host). -/
inductive EErr where
  | thrown
  | fuel
deriving DecidableEq, Repr

/-- Add to an insertion-ordered set (JavaScript `Set.add`). -/
def addN (x : Nat) (l : List Nat) : List Nat :=
  if x ∈ l then l else l ++ [x]

/-- Add a cell to an insertion-ordered set (JavaScript `Set.add`). -/
def addCell (x : Cell) (l : List Cell) : List Cell :=
  if x ∈ l then l else l ++ [x]

/-- Remove from a set (JavaScript `Set.delete`). -/
def delN (x : Nat) (l : List Nat) : List Nat :=
  l.filter (fun y => y ≠ x)

/-- Remove a cell from a set (JavaScript `Set.delete`). -/
def delCell (x : Cell) (l : List Cell) : List Cell :=
  l.filter (fun y => y ≠ x)

/-- Pointwise map update. -/
def updF {α : Type} (f : Nat → α) (a : Nat) (v : α) : Nat → α :=
  fun b => if b = a then v else f b

/-- The whole-process state of the signals runtime. -/
@[ext]
structure Sys where
  /-- `State.#value` for each state id. -/
  stateVal : Nat → Int
  /-- `State.#dependents` for each state id. -/
  stateDeps : Nat → List Nat
  /-- `State.#watchers` for each state id. -/
  stW : Nat → List Nat
  /-- `Computed.#computation` for each computed id (static). -/
  comp : Nat → Expr
  /-- whether the computed is an effect body (constructed by `effect`). -/
  isBody : Nat → Bool
  /-- for an effect body: whether its callback returns a cleanup function. -/
  retClean : Nat → Bool
  /-- `Computed.#value` (undefined until first successful recomputation). -/
  value : Nat → Option Int
  /-- the computeds whose `#isStale` flag is `false` (all start stale). -/
  freshL : List Nat
  /-- `Computed.#sources`. -/
  sources : Nat → List Cell
  /-- `Computed.#dependents`. -/
  compDeps : Nat → List Nat
  /-- `Computed.#watchers`. -/
  cpW : Nat → List Nat
  /-- the global `currentlyComputing` slot. -/
  ctx : Option Nat
  /-- `Watcher.#watchedSignals` for each watcher id. -/
  watched : Nat → List Cell
  /-- whether the watcher is the global scheduling watcher `w`. -/
  wSched : Nat → Bool
  /-- ghost: number of times each watcher's callback has been invoked. -/
  notifies : Nat → Nat
  /-- the scheduler's `pending` flag. -/
  pending : Bool
  /-- number of drain microtasks currently queued (0 or 1 in reachable states). -/
  drainQ : Nat
  /-- for an effect body: whether a `destructor` cleanup is currently stored. -/
  destr : Nat → Bool
  /-- ghost: number of invocations of each computed's computation function. -/
  runs : Nat → Nat
  /-- ghost: number of cleanup-function invocations per effect computed. -/
  cleanupRuns : Nat → Nat

/-- `State.get`: return the current value; if a computed is currently
running, register the bidirectional dependency edge. -/
def stateGet (s : Nat) (sys : Sys) : Int × Sys :=
  match sys.ctx with
  | some d =>
      (sys.stateVal s,
       { sys with
           stateDeps := updF sys.stateDeps s (addN d (sys.stateDeps s)),
           sources := updF sys.sources d (addCell (.st s) (sys.sources d)) })
  | none => (sys.stateVal s, sys)

/-- `Watcher._notify`: bump the ghost notification counter and run the
callback.  The only modelled callback with observable behaviour is the
global scheduling watcher's: if no batch is pending, set the flag and
enqueue one drain microtask. -/
def notify1 (w : Nat) (sys : Sys) : Sys :=
  let sys1 := { sys with notifies := updF sys.notifies w (sys.notifies w + 1) }
  if sys1.wSched w then
    if sys1.pending then sys1
    else { sys1 with pending := true, drainQ := sys1.drainQ + 1 }
  else sys1

/-- Notify a list of watchers in order. -/
def notifyList (ws : List Nat) (sys : Sys) : Sys :=
  ws.foldl (fun s w => notify1 w s) sys

/-- `Computed._markStale`, depth-first over dependent edges.  The
`one`/`many` distinction mirrors the recursive call on a single computed
versus the loop over a dependent set; fuel bounds the recursion depth
(the source relies on the dependency graph being acyclic). -/
def markMany : Nat → List Nat → Sys → Sys
  | _, [], sys => sys
  | 0, _ :: _, sys => sys
  | fuel + 1, c :: cs, sys =>
      if c ∈ sys.freshL then
        let sys1 := { sys with freshL := delN c sys.freshL }
        let sys2 := markMany fuel (sys1.compDeps c) sys1
        let sys3 := notifyList (sys2.cpW c) sys2
        markMany fuel cs sys3
      else markMany fuel cs sys

/-- Fuel that is always sufficient for a complete `markMany` walk:
the worklist plus, for every still-fresh computed, one flip and one
visit per dependent. -/
def markCost (sys : Sys) : Nat :=
  (sys.freshL.map (fun c => 1 + (sys.compDeps c).length)).sum

/-- `State.set`: no-op when the value is identical; otherwise store the
new value, mark all dependent computeds stale (transitively), then
notify the state's watchers. -/
def stateSet (s : Nat) (v : Int) (sys : Sys) : Sys :=
  if sys.stateVal s = v then sys
  else
    let sys1 := { sys with stateVal := updF sys.stateVal s v }
    let sys2 := markMany ((sys1.stateDeps s).length + markCost sys1) (sys1.stateDeps s) sys1
    notifyList (sys2.stW s) sys2

/-- One step of the dependency-clearing pass: remove computed `c` from
a single source cell's dependent set (the `instanceof` branch inside
`#recompute`). -/
def remDep (c : Nat) (s : Sys) (cell : Cell) : Sys :=
  match cell with
  | .st sid => { s with stateDeps := updF s.stateDeps sid (delN c (s.stateDeps sid)) }
  | .cp cid => { s with compDeps := updF s.compDeps cid (delN c (s.compDeps cid)) }

/-- The dependency-clearing pass at the start of `Computed.#recompute`:
remove this computed from every current source's dependent set, then
clear the source set. -/
def clearSources (c : Nat) (sys : Sys) : Sys :=
  let sys1 := (sys.sources c).foldl (remDep c) sys
  { sys1 with sources := updF sys1.sources c [] }

/-- The three mutually recursive engine entry points: expression
evaluation, `Computed.get`, and `Computed.#recompute`. -/
inductive Call where
  | ev (e : Expr)
  | get (c : Nat)
  | rc (c : Nat)

/-- Register the edge `Computed.get` adds when read under a tracking
context. -/
def regEdge (c : Nat) (sys : Sys) : Sys :=
  match sys.ctx with
  | some d =>
      { sys with
          compDeps := updF sys.compDeps c (addN d (sys.compDeps c)),
          sources := updF sys.sources d (addCell (.cp c) (sys.sources d)) }
  | none => sys

/-- Sequence an engine result into a continuation, propagating an
escaped exception (the behaviour of an uncaught JavaScript throw). -/
def andThen (p : Except EErr Int × Sys) (k : Int → Sys → Except EErr Int × Sys) :
    Except EErr Int × Sys :=
  match p with
  | (.ok v, s) => k v s
  | (.error err, s) => (.error err, s)

/-- Tail of `Computed.get` after the recomputation branch: on success
register the edge under the tracking context and return the cached
value; an exception keeps propagating. -/
def getAfterRec (c : Nat) (p : Except EErr Int × Sys) : Except EErr Int × Sys :=
  match p with
  | (.ok _, sys1) =>
      let sys2 := regEdge c sys1
      (.ok ((sys2.value c).getD 0), sys2)
  | (.error err, sys1) => (.error err, sys1)

/-- Tail of `Computed.#recompute`: on success store the value and clear
the staleness flag (and, for an effect body, store whether a new cleanup
function was returned); on both paths restore the previous tracking
context (the `finally` block). -/
def finishRec (prev : Option Nat) (c : Nat) (p : Except EErr Int × Sys) :
    Except EErr Int × Sys :=
  match p with
  | (.ok v, sys5) =>
      (.ok v,
       { sys5 with
           value := updF sys5.value c (some (if sys5.isBody c then 0 else v)),
           freshL := addN c sys5.freshL,
           destr := if sys5.isBody c then updF sys5.destr c (sys5.retClean c)
                    else sys5.destr,
           ctx := prev })
  | (.error err, sys5) => (.error err, { sys5 with ctx := prev })

/-- The engine.  `run fuel (.ev e)` evaluates an expression with reads
going through the `get` logic; `run fuel (.get c)` is `Computed.get`;
`run fuel (.rc c)` is `Computed.#recompute`.  Every recursive call
consumes one unit of fuel; exhaustion returns `.error .fuel`. -/
def run : Nat → Call → Sys → Except EErr Int × Sys
  | 0, _, sys => (.error .fuel, sys)
  | fuel + 1, .ev e, sys =>
      match e with
      | .lit n => (.ok n, sys)
      | .readS s =>
          let p := stateGet s sys
          (.ok p.1, p.2)
      | .readC c => run fuel (.get c) sys
      | .add a b =>
          andThen (run fuel (.ev a) sys) fun va sys1 =>
            andThen (run fuel (.ev b) sys1) fun vb sys2 => (.ok (va + vb), sys2)
      | .mul a b =>
          andThen (run fuel (.ev a) sys) fun va sys1 =>
            andThen (run fuel (.ev b) sys1) fun vb sys2 => (.ok (va * vb), sys2)
      | .ifz x t f =>
          andThen (run fuel (.ev x) sys) fun vx sys1 =>
            run fuel (.ev (if vx = 0 then t else f)) sys1
      | .untrack inner =>
          let prev := sys.ctx
          let p := run fuel (.ev inner) { sys with ctx := none }
          (p.1, { p.2 with ctx := prev })
      | .throwE => (.error .thrown, sys)
  | fuel + 1, .get c, sys =>
      if c ∈ sys.freshL then
        let sys2 := regEdge c sys
        (.ok ((sys2.value c).getD 0), sys2)
      else getAfterRec c (run fuel (.rc c) sys)
  | fuel + 1, .rc c, sys =>
      let sys1 := clearSources c sys
      let sys2 := { sys1 with ctx := some c }
      let sys3 := { sys2 with runs := updF sys2.runs c (sys2.runs c + 1) }
      let sys4 :=
        if sys3.isBody c ∧ sys3.destr c then
          { sys3 with cleanupRuns := updF sys3.cleanupRuns c (sys3.cleanupRuns c + 1) }
        else sys3
      finishRec sys1.ctx c (run fuel (.ev (sys4.comp c)) sys4)

/-- `Watcher.watch`: add the cell to the watched set and register the
watcher with the cell. -/
def watchW (w : Nat) (x : Cell) (sys : Sys) : Sys :=
  let sys1 := { sys with watched := updF sys.watched w (addCell x (sys.watched w)) }
  match x with
  | .st s => { sys1 with stW := updF sys1.stW s (addN w (sys1.stW s)) }
  | .cp c => { sys1 with cpW := updF sys1.cpW c (addN w (sys1.cpW c)) }

/-- `Watcher.unwatch`. -/
def unwatchW (w : Nat) (x : Cell) (sys : Sys) : Sys :=
  let sys1 := { sys with watched := updF sys.watched w (delCell x (sys.watched w)) }
  match x with
  | .st s => { sys1 with stW := updF sys1.stW s (delN w (sys1.stW s)) }
  | .cp c => { sys1 with cpW := updF sys1.cpW c (delN w (sys1.cpW c)) }

/-- `Watcher.getPending`: as written in the source it returns the array
of currently watched signals; it performs no state change. -/
def getPendingW (w : Nat) (sys : Sys) : List Cell × Sys :=
  (sys.watched w, sys)

/-- The disposer returned by `effect`: run the stored cleanup (if any),
then unwatch the effect's computed from the global watcher.  The stored
cleanup reference is not cleared. -/
def dispose (c : Nat) (sys : Sys) : Sys :=
  let sys1 :=
    if sys.destr c then
      { sys with cleanupRuns := updF sys.cleanupRuns c (sys.cleanupRuns c + 1) }
    else sys
  unwatchW 0 (.cp c) sys1

/-- One step of the drain loop `for (let s of w.getPending()) s.get()`:
call `get` on one cell, short-circuiting once an exception has escaped. -/
def drainStep (fuel : Nat) (acc : Except EErr Unit × Sys) (x : Cell) :
    Except EErr Unit × Sys :=
  match acc with
  | (.error err, s) => (.error err, s)
  | (.ok _, s) =>
      match x with
      | .st sid =>
          let p := stateGet sid s
          (.ok (), p.2)
      | .cp cid =>
          match run fuel (.get cid) s with
          | (.ok _, s1) => (.ok (), s1)
          | (.error err, s1) => (.error err, s1)

/-- One step of the re-watch loop `for (let s of w.getPending()) w.watch(s)`. -/
def rewatchStep (t : Sys) (x : Cell) : Sys := watchW 0 x t

/-- Body of the drain microtask once `pending` has been reset: call
`get` on every signal returned by `getPending` (aborting on a propagated
exception, as an exception in a microtask would), then re-watch them
all. -/
def drainLoop (fuel : Nat) (sys0 : Sys) : Except EErr Unit × Sys :=
  match (getPendingW 0 sys0).1.foldl (drainStep fuel) (Except.ok (), sys0) with
  | (.ok _, s) =>
      let s2 := (getPendingW 0 s).1.foldl rewatchStep s
      (.ok (), s2)
  | (.error err, s) => (.error err, s)

/-- The drain microtask queued by the global watcher `w` (watcher id 0):
leave the queue, reset `pending`, then run the drain body. -/
def runDrain (fuel : Nat) (sys : Sys) : Except EErr Unit × Sys :=
  drainLoop fuel { sys with pending := false, drainQ := sys.drainQ - 1 }

/-- The public operations of the library, as top-level calls. -/
inductive Op where
  | oset (s : Nat) (v : Int)
  | oget (c : Nat) (fuel : Nat)
  | ogetS (s : Nat)
  | ountr (e : Expr) (fuel : Nat)
  | owatch (w : Nat) (x : Cell)
  | ounwatch (w : Nat) (x : Cell)
  | oeffect (c : Nat) (fuel : Nat)
  | odrain (fuel : Nat)
  | odispose (c : Nat)

/-- Apply a public operation.  A thrown exception is absorbed by the
external caller; the state it left behind persists. -/
def applyOp (op : Op) (sys : Sys) : Sys :=
  match op with
  | .oset s v => stateSet s v sys
  | .oget c fuel => (run fuel (.get c) sys).2
  | .ogetS s => (stateGet s sys).2
  | .ountr e fuel =>
      let prev := sys.ctx
      let p := run fuel (.ev e) { sys with ctx := none }
      { p.2 with ctx := prev }
  | .owatch w x => watchW w x sys
  | .ounwatch w x => unwatchW w x sys
  | .oeffect c fuel => (run fuel (.get c) (watchW 0 (.cp c) sys)).2
  | .odrain fuel => if sys.drainQ = 0 then sys else (runDrain fuel sys).2
  | .odispose c => dispose c sys

/-- Apply a sequence of public operations. -/
def applyOps (ops : List Op) (sys : Sys) : Sys :=
  ops.foldl (fun s op => applyOp op s) sys

/-- The initial system: every state holds its initial value, every
computed is stale with no value, no edges, no watchers attached, watcher
0 is the global scheduling watcher, nothing pending. -/
def init (cmp : Nat → Expr) (body ret : Nat → Bool) (vals : Nat → Int) : Sys where
  stateVal := vals
  stateDeps := fun _ => []
  stW := fun _ => []
  comp := cmp
  isBody := body
  retClean := ret
  value := fun _ => none
  freshL := []
  sources := fun _ => []
  compDeps := fun _ => []
  cpW := fun _ => []
  ctx := none
  watched := fun _ => []
  wSched := fun w => w == 0
  notifies := fun _ => 0
  pending := false
  drainQ := 0
  destr := fun _ => false
  runs := fun _ => 0
  cleanupRuns := fun _ => 0

/-- A system is reachable when some sequence of public operations
produces it from an initial system. -/
def Reaches (sys : Sys) : Prop :=
  ∃ (cmp : Nat → Expr) (body ret : Nat → Bool) (vals : Nat → Int) (ops : List Op),
    applyOps ops (init cmp body ret vals) = sys

/-- Every computed read by the expression has an id strictly below `c`
(including reads inside untrack scopes).  Assigning computations that
satisfy this for every computed makes the dependency graph well founded,
which the source implicitly assumes: a computation that (transitively)
reads itself overflows the host stack. -/
def readsBelow (c : Nat) : Expr → Bool
  | .lit _ => true
  | .readS _ => true
  | .readC c' => c' < c
  | .add a b => readsBelow c a && readsBelow c b
  | .mul a b => readsBelow c a && readsBelow c b
  | .ifz x t f => readsBelow c x && readsBelow c t && readsBelow c f
  | .untrack e => readsBelow c e
  | .throwE => true

/-- Well-founded assignment of computation functions. -/
def wfComp (sys : Sys) : Prop :=
  ∀ c, readsBelow c (sys.comp c) = true

/-- The expression contains no untrack scope. -/
def noUn : Expr → Bool
  | .lit _ => true
  | .readS _ => true
  | .readC _ => true
  | .add a b => noUn a && noUn b
  | .mul a b => noUn a && noUn b
  | .ifz x t f => noUn x && noUn t && noUn f
  | .untrack _ => false
  | .throwE => true

/-- No computation function in the system uses untrack. -/
def noUnComp (sys : Sys) : Prop :=
  ∀ c, noUn (sys.comp c) = true

/-- Every read of state `s` in the expression occurs inside an untrack
scope. -/
def sOnly (s : Nat) : Expr → Bool
  | .lit _ => true
  | .readS s' => s' ≠ s
  | .readC _ => true
  | .add a b => sOnly s a && sOnly s b
  | .mul a b => sOnly s a && sOnly s b
  | .ifz x t f => sOnly s x && sOnly s t && sOnly s f
  | .untrack _ => true
  | .throwE => true

/-- The specification-side fresh evaluation: evaluate an expression
against the current state values only, re-running every computed's
computation function from scratch (no cache), and collect the cells the
expression reads directly with tracking active (reads under untrack are
not collected).  Returns the value together with that direct read list. -/
def pr : Nat → Expr → Sys → Except EErr (Int × List Cell)
  | 0, _, _ => .error .fuel
  | fuel + 1, e, sys =>
      match e with
      | .lit n => .ok (n, [])
      | .readS s => .ok (sys.stateVal s, [.st s])
      | .readC c =>
          match pr fuel (sys.comp c) sys with
          | .ok (v, _) => .ok ((if sys.isBody c then 0 else v), [.cp c])
          | .error err => .error err
      | .add a b =>
          match pr fuel a sys with
          | .ok (va, ra) =>
              match pr fuel b sys with
              | .ok (vb, rb) => .ok (va + vb, ra ++ rb)
              | .error err => .error err
          | .error err => .error err
      | .mul a b =>
          match pr fuel a sys with
          | .ok (va, ra) =>
              match pr fuel b sys with
              | .ok (vb, rb) => .ok (va * vb, ra ++ rb)
              | .error err => .error err
          | .error err => .error err
      | .ifz x t f =>
          match pr fuel x sys with
          | .ok (vx, rx) =>
              match pr fuel (if vx = 0 then t else f) sys with
              | .ok (vb, rb) => .ok (vb, rx ++ rb)
              | .error err => .error err
          | .error err => .error err
      | .untrack inner =>
          match pr fuel inner sys with
          | .ok (v, _) => .ok (v, [])
          | .error err => .error err
      | .throwE => .error .thrown

/-- Reciprocity of dependency edges: a computed is in a cell's dependent
set exactly when the cell is in the computed's source set. -/
def Recip (sys : Sys) : Prop :=
  (∀ s c, c ∈ sys.stateDeps s ↔ Cell.st s ∈ sys.sources c) ∧
  (∀ c' c, c ∈ sys.compDeps c' ↔ Cell.cp c' ∈ sys.sources c)

/-- Upward reachability through dependent edges from a root worklist:
the computeds that a stale-marking walk starting at `roots` could ever
visit, ignoring staleness flags (an over-approximation of what
`_markStale` touches). -/
inductive UpReach (sys : Sys) (roots : List Nat) : Nat → Prop
  | base (c : Nat) : c ∈ roots → UpReach sys roots c
  | step (x c : Nat) : UpReach sys roots x → c ∈ sys.compDeps x → UpReach sys roots c

/-- Shape of an engine evaluation's effect on the system: everything an
evaluation can touch is listed; by construction the remaining fields
(state values, the static computation tables, the watcher layer and the
scheduler state) are untouched. -/
def RunOnly (a b : Sys) : Prop :=
  b = { a with
          stateDeps := b.stateDeps, sources := b.sources, compDeps := b.compDeps,
          value := b.value, freshL := b.freshL, destr := b.destr,
          runs := b.runs, cleanupRuns := b.cleanupRuns, ctx := b.ctx }

/-- Shape of the dependency-clearing pass: only dependent sets change. -/
def DepsOnly (a b : Sys) : Prop :=
  b = { a with stateDeps := b.stateDeps, compDeps := b.compDeps }

/-- Shape of a single dependency-edge registration or removal: only
dependent sets and source sets change. -/
def CSOnly (a b : Sys) : Prop :=
  b = { a with stateDeps := b.stateDeps, compDeps := b.compDeps, sources := b.sources }

/-- Shape of a stale-marking walk (with its watcher notifications): only
staleness flags, notification counters and the scheduler state change. -/
def MarkOnly (a b : Sys) : Prop :=
  b = { a with
          freshL := b.freshL, notifies := b.notifies,
          pending := b.pending, drainQ := b.drainQ }

/-- Shape of a full `State.set`: a state value plus the `MarkOnly` fields. -/
def SetOnly (a b : Sys) : Prop :=
  b = { a with
          stateVal := b.stateVal, freshL := b.freshL, notifies := b.notifies,
          pending := b.pending, drainQ := b.drainQ }

/-- Quiescent setup for the batching claim: nothing pending, the global
scheduling watcher (id 0) watches the effect's computed `c0`, which is
currently fresh, and no computation is mid-evaluation. -/
def SetupBatch (sys : Sys) (c0 : Nat) : Prop :=
  sys.pending = false ∧ sys.drainQ = 0 ∧ sys.wSched 0 = true ∧
  Cell.cp c0 ∈ sys.watched 0 ∧ 0 ∈ sys.cpW c0 ∧ c0 ∈ sys.freshL

/-- Apply a list of `set` calls (one synchronous turn). -/
def applySets (l : List (Nat × Int)) (sys : Sys) : Sys :=
  l.foldl (fun s p => stateSet p.1 p.2 s) sys

/-- Diamond scenario: state 0 is `A`; computed 0 is `B = A + 1`;
computed 1 is `C = A * 2`; computed 2 is `D = B + C`. -/
def diamondComp : Nat → Expr
  | 0 => .add (.readS 0) (.lit 1)
  | 1 => .mul (.readS 0) (.lit 2)
  | 2 => .add (.readC 0) (.readC 1)
  | _ => .lit 0

/-- Diamond scenario, initial system with `A = 1`. -/
def diamond0 : Sys := init diamondComp (fun _ => false) (fun _ => false) (fun _ => 1)

/-- Diamond scenario after the first `D.get()`. -/
def diamond1 : Sys := applyOps [.oget 2 99] diamond0

/-- Diamond scenario after `A.set(2)`. -/
def diamond2 : Sys := applyOps [.oset 0 2] diamond1

/-- Diamond scenario after the second `D.get()`. -/
def diamond3 : Sys := applyOps [.oget 2 99] diamond2

/-- Untracked-read scenario: computed 0 reads state 0 only inside
untrack.  After a first `get` and a `set` of state 0, the cache is out
of step with a fresh invocation of the computation function. -/
def untrComp : Nat → Expr
  | 0 => .untrack (.readS 0)
  | _ => .lit 0

/-- Untracked-read scenario after `c.get()` and `s.set(2)`. -/
def untrSys : Sys :=
  applyOps [.oget 0 99, .oset 0 2]
    (init untrComp (fun _ => false) (fun _ => false) (fun _ => 1))

/-- Transitive-staleness scenario: computed 0 tracks state 0; computed 1
reads state 0 only inside untrack but also (tracked) reads computed 0. -/
def transComp : Nat → Expr
  | 0 => .readS 0
  | 1 => .add (.untrack (.readS 0)) (.readC 0)
  | _ => .lit 0

/-- Transitive-staleness scenario after `c0.get()` only. -/
def transPre : Sys :=
  applyOps [.oget 0 99]
    (init transComp (fun _ => false) (fun _ => false) (fun _ => 1))

/-- Transitive-staleness scenario after `c0.get()` and `c1.get()`. -/
def transSys : Sys :=
  applyOps [.oget 0 99, .oget 1 99]
    (init transComp (fun _ => false) (fun _ => false) (fun _ => 1))

/-- Transitive-staleness scenario after a later `s.set(5)`. -/
def transSys2 : Sys := applyOps [.oset 0 5] transSys

/-- Watcher scenario: watcher 1 watches state 0, which is then set. -/
def watchSys : Sys :=
  applyOps [.owatch 1 (.st 0), .oset 0 5]
    (init (fun _ => .lit 0) (fun _ => false) (fun _ => false) (fun _ => 1))

/-- Effect scenario: computed 0 is an effect body reading states 0 and 1
and returning a cleanup function. -/
def effComp : Nat → Expr
  | 0 => .add (.readS 0) (.readS 1)
  | _ => .lit 0

/-- Effect scenario after `effect(cb)` has attached and first-run the body. -/
def eff0 : Sys :=
  applyOps [.oeffect 0 99] (init effComp (fun c => c == 0) (fun _ => true) (fun _ => 0))

/-- Effect scenario after two `set` calls in one synchronous turn. -/
def eff1 : Sys := applyOps [.oset 0 5, .oset 1 7] eff0

/-- Throwing scenario: computed 0 reads state 0 and then throws. -/
def throwComp : Nat → Expr
  | 0 => .add (.readS 0) .throwE
  | _ => .lit 0

/-- Throwing scenario, initial system. -/
def throwSys : Sys := init throwComp (fun _ => false) (fun _ => false) (fun _ => 1)

/-- Simple one-state system for the no-op `set` witness. -/
def plainSys : Sys := init (fun _ => .lit 0) (fun _ => false) (fun _ => false) (fun _ => 1)

/-- The conclusions of the basic engine frame lemma, for one result. -/
def RunShape (sys : Sys) (p : Except EErr Int × Sys) : Prop :=
  RunOnly sys p.2 ∧ p.2.ctx = sys.ctx ∧ ∀ x, x ∈ sys.freshL → x ∈ p.2.freshL

/-- Bound discipline for an engine call: an expression only reads
computeds strictly below the bound; a `get` or recompute call targets a
computed strictly below the bound. -/
def callBelow : Call → Nat → Prop
  | .ev e, d => readsBelow d e = true
  | .get c, d => c < d
  | .rc c, d => c < d

/-- The conclusions of the bounded-write frame lemma at one cell `x`:
its cached value, staleness flag and run counter are untouched. -/
def ValFrame (x : Nat) (sys : Sys) (p : Except EErr Int × Sys) : Prop :=
  p.2.value x = sys.value x ∧ ((x ∈ p.2.freshL) ↔ x ∈ sys.freshL) ∧
  p.2.runs x = sys.runs x

/-- The source set a sequence of tracked reads builds: each read is
inserted in order into an initially empty insertion-ordered set. -/
def collect (rds : List Cell) : List Cell :=
  rds.foldl (fun acc x => addCell x acc) []

/-- Discipline of an expression relative to the tracking context: under
a context `d` the expression reads only computeds below `d`, and `d`
itself is mid-recomputation, hence stale. -/
def TrackOK (sys : Sys) (e : Expr) : Prop :=
  ∀ d, sys.ctx = some d → readsBelow d e = true ∧ d ∉ sys.freshL

/-- The cache-consistency invariant for untrack-free systems.  Every
fresh (not stale) computed caches exactly the value a from-scratch
evaluation produces against the current state values, and its source
set records exactly the cells that evaluation reads; tracked computed
sources of a fresh computed are fresh and strictly below it; dependency
edges are reciprocal. -/
structure Inv (sys : Sys) : Prop where
  wf : wfComp sys
  nu : noUnComp sys
  rp : Recip sys
  sb : ∀ c c', Cell.cp c' ∈ sys.sources c → c' < c
  fd : ∀ c, c ∈ sys.freshL → ∀ c', Cell.cp c' ∈ sys.sources c → c' ∈ sys.freshL
  fo : ∀ c, c ∈ sys.freshL → ∃ fuel v rds,
    pr fuel (sys.comp c) sys = .ok (v, rds) ∧
    sys.value c = some (if sys.isBody c then 0 else v) ∧
    sys.sources c = collect rds

theorem mem_addN_iff (y x : Nat) (l : List Nat) : y ∈ addN x l ↔ y = x ∨ y ∈ l := by
  unfold addN
  split
  · constructor
    · exact fun h => Or.inr h
    · rintro (h1 | h1)
      · subst h1; assumption
      · exact h1
  · simp [or_comm]

theorem mem_addCell_iff (y x : Cell) (l : List Cell) :
    y ∈ addCell x l ↔ y = x ∨ y ∈ l := by
  unfold addCell
  split
  · constructor
    · exact fun h => Or.inr h
    · rintro (h1 | h1)
      · subst h1; assumption
      · exact h1
  · simp [or_comm]

theorem mem_delN_iff (y x : Nat) (l : List Nat) : y ∈ delN x l ↔ y ∈ l ∧ y ≠ x := by
  unfold delN
  simp

theorem mem_delCell_iff (y x : Cell) (l : List Cell) :
    y ∈ delCell x l ↔ y ∈ l ∧ y ≠ x := by
  unfold delCell
  simp

theorem csOnly_refl (a : Sys) : CSOnly a a := rfl

theorem csOnly_trans {a b c : Sys} (h1 : CSOnly a b) (h2 : CSOnly b c) : CSOnly a c := by
  unfold CSOnly at *
  rw [h2, h1]

theorem depsOnly_csOnly {a b : Sys} (h : DepsOnly a b) : CSOnly a b := by
  unfold DepsOnly at h
  unfold CSOnly
  rw [h]

theorem csOnly_runOnly {a b : Sys} (h : CSOnly a b) : RunOnly a b := by
  unfold CSOnly at h
  unfold RunOnly
  rw [h]

theorem runOnly_trans {a b c : Sys} (h1 : RunOnly a b) (h2 : RunOnly b c) : RunOnly a c := by
  unfold RunOnly at *
  rw [h2, h1]

theorem markOnly_refl (a : Sys) : MarkOnly a a := rfl

theorem markOnly_trans {a b c : Sys} (h1 : MarkOnly a b) (h2 : MarkOnly b c) :
    MarkOnly a c := by
  unfold MarkOnly at *
  rw [h2, h1]

theorem stateGet_csOnly (s : Nat) (sys : Sys) : CSOnly sys (stateGet s sys).2 := by
  unfold stateGet CSOnly
  cases hctx : sys.ctx <;> ext <;> simp [hctx]

theorem stateGet_val (s : Nat) (sys : Sys) : (stateGet s sys).1 = sys.stateVal s := by
  unfold stateGet
  cases sys.ctx <;> rfl

theorem regEdge_csOnly (c : Nat) (sys : Sys) : CSOnly sys (regEdge c sys) := by
  unfold regEdge CSOnly
  cases hctx : sys.ctx <;> ext <;> simp [hctx]

theorem remDep_depsOnly (c : Nat) (s : Sys) (x : Cell) : DepsOnly s (remDep c s x) := by
  unfold remDep DepsOnly
  cases x <;> rfl

theorem foldl_remDep_depsOnly (c : Nat) (l : List Cell) (s : Sys) :
    DepsOnly s (l.foldl (remDep c) s) := by
  induction l generalizing s with
  | nil => exact rfl
  | cons x xs ih =>
    rw [List.foldl_cons]
    exact
      (by
        unfold DepsOnly at *
        rw [ih (remDep c s x), remDep_depsOnly c s x] :
        DepsOnly s (xs.foldl (remDep c) (remDep c s x)))

theorem clearSources_csOnly (c : Nat) (sys : Sys) : CSOnly sys (clearSources c sys) := by
  unfold clearSources CSOnly
  rw [foldl_remDep_depsOnly c (sys.sources c) sys]

theorem remDep_ctx (c : Nat) (s : Sys) (x : Cell) : (remDep c s x).ctx = s.ctx := by
  cases x <;> rfl

theorem foldl_remDep_ctx (c : Nat) (l : List Cell) (s : Sys) :
    (l.foldl (remDep c) s).ctx = s.ctx := by
  induction l generalizing s with
  | nil => rfl
  | cons x xs ih => rw [List.foldl_cons, ih, remDep_ctx]

theorem clearSources_ctx (c : Nat) (sys : Sys) : (clearSources c sys).ctx = sys.ctx := by
  show ((sys.sources c).foldl (remDep c) sys).ctx = sys.ctx
  exact foldl_remDep_ctx c _ sys

theorem finishRec_ctx (prev : Option Nat) (c : Nat) (p : Except EErr Int × Sys) :
    (finishRec prev c p).2.ctx = prev := by
  rcases p with ⟨r, s⟩
  cases r <;> rfl

theorem runOnly_refl (a : Sys) : RunOnly a a := rfl

theorem csOnly_ctx {a b : Sys} (h : CSOnly a b) : b.ctx = a.ctx := by rw [h]

theorem csOnly_freshL {a b : Sys} (h : CSOnly a b) : b.freshL = a.freshL := by rw [h]

theorem csOnly_value {a b : Sys} (h : CSOnly a b) : b.value = a.value := by rw [h]

theorem csOnly_runs {a b : Sys} (h : CSOnly a b) : b.runs = a.runs := by rw [h]

theorem finishRec_runOnly (prev : Option Nat) (c : Nat) (p : Except EErr Int × Sys) :
    RunOnly p.2 (finishRec prev c p).2 := by
  rcases p with ⟨r, s⟩
  cases r <;> exact rfl

theorem finishRec_freshMono (prev : Option Nat) (c : Nat) (p : Except EErr Int × Sys)
    (x : Nat) (h : x ∈ p.2.freshL) : x ∈ (finishRec prev c p).2.freshL := by
  rcases p with ⟨r, s⟩
  cases r with
  | ok v => exact (mem_addN_iff x c s.freshL).mpr (Or.inr h)
  | error err => exact h

theorem runShape_id (sys : Sys) (r : Except EErr Int) : RunShape sys (r, sys) :=
  ⟨rfl, rfl, fun _ h => h⟩

theorem andThen_shape {sys : Sys} {p : Except EErr Int × Sys}
    {k : Int → Sys → Except EErr Int × Sys}
    (hp : RunShape sys p) (hk : ∀ v s, RunShape s (k v s)) :
    RunShape sys (andThen p k) := by
  rcases p with ⟨r, s⟩
  cases r with
  | ok v =>
    have h2 := hk v s
    refine ⟨runOnly_trans hp.1 h2.1, ?_, fun x hx => h2.2.2 x (hp.2.2 x hx)⟩
    show (k v s).2.ctx = sys.ctx
    rw [h2.2.1]
    exact hp.2.1
  | error err => exact hp

theorem csOnly_shape {sys b : Sys} (h : CSOnly sys b) (r : Except EErr Int) :
    RunShape sys (r, b) :=
  ⟨csOnly_runOnly h, csOnly_ctx h, fun x hx => by rw [csOnly_freshL h]; exact hx⟩

theorem rc_shape_aux {sys s4 : Sys} {e : Expr} (c : Nat) (n : Nat) {prev : Option Nat}
    (h4 : RunOnly sys s4) (hf : s4.freshL = sys.freshL) (hprev : prev = sys.ctx)
    (ih5 : RunShape s4 (run n (.ev e) s4)) :
    RunShape sys (finishRec prev c (run n (.ev e) s4)) := by
  refine ⟨?_, ?_, ?_⟩
  · exact runOnly_trans (runOnly_trans h4 ih5.1) (finishRec_runOnly prev c _)
  · rw [finishRec_ctx]; exact hprev
  · intro x hx
    exact finishRec_freshMono prev c _ x (ih5.2.2 x (by rw [hf]; exact hx))

/-- Basic engine frame: an engine call only changes dependency edges,
caches, staleness, effect bookkeeping and ghost counters; it restores
the tracking context, and it never turns a fresh computed stale. -/
theorem run_shape (fuel : Nat) : ∀ (call : Call) (sys : Sys),
    RunShape sys (run fuel call sys) := by
  induction fuel with
  | zero => intro call sys; exact runShape_id sys _
  | succ n ih =>
    intro call sys
    cases call with
    | ev e =>
      cases e with
      | lit v => exact runShape_id sys _
      | readS s =>
        simp only [run]
        exact csOnly_shape (stateGet_csOnly s sys) _
      | readC c =>
        simp only [run]
        exact ih (.get c) sys
      | add a b =>
        simp only [run]
        exact andThen_shape (ih _ _) fun v s =>
          andThen_shape (ih _ _) fun v2 s2 => runShape_id s2 _
      | mul a b =>
        simp only [run]
        exact andThen_shape (ih _ _) fun v s =>
          andThen_shape (ih _ _) fun v2 s2 => runShape_id s2 _
      | ifz x t f =>
        simp only [run]
        exact andThen_shape (ih _ _) fun v s => ih _ _
      | untrack inner =>
        simp only [run]
        have h := ih (.ev inner) { sys with ctx := none }
        refine ⟨?_, rfl, ?_⟩
        · exact runOnly_trans (runOnly_trans (runOnly_refl _) h.1)
            (rfl : RunOnly _ { (run n (.ev inner) { sys with ctx := none }).2 with ctx := sys.ctx })
        · exact fun x hx => h.2.2 x hx
      | throwE => exact runShape_id sys _
    | get c =>
      simp only [run]
      split
      · exact csOnly_shape (regEdge_csOnly c sys) _
      · rcases hr : run n (.rc c) sys with ⟨r, s1⟩
        have ihh := ih (.rc c) sys
        rw [hr] at ihh
        cases r with
        | ok v =>
          unfold getAfterRec
          have h2 := csOnly_shape (regEdge_csOnly c s1) (r := .ok ((regEdge c s1).value c |>.getD 0))
          exact ⟨runOnly_trans ihh.1 h2.1, by rw [h2.2.1]; exact ihh.2.1,
            fun x hx => h2.2.2 x (ihh.2.2 x hx)⟩
        | error err => exact ihh
    | rc c =>
      simp only [run]
      have h1 := clearSources_csOnly c sys
      refine rc_shape_aux c n ?_ ?_ (clearSources_ctx c sys) (ih _ _)
      · split
        · exact runOnly_trans (csOnly_runOnly h1) rfl
        · exact runOnly_trans (csOnly_runOnly h1) rfl
      · split
        · show (clearSources c sys).freshL = sys.freshL
          exact csOnly_freshL h1
        · show (clearSources c sys).freshL = sys.freshL
          exact csOnly_freshL h1

/-- C8: after a call to a Computed's recomputation and after an untrack
scope, the tracking context (the `currentlyComputing` slot) equals its
prior value, on every exit path, including when the computation or the
inner function throws (both results are covered: the equation holds
whatever `run` returns). -/
theorem c8_tracking_context_restored (fuel c : Nat) (e : Expr) (sys : Sys) :
    (run fuel (.rc c) sys).2.ctx = sys.ctx ∧
    (run fuel (.ev (.untrack e)) sys).2.ctx = sys.ctx := by
  constructor
  · cases fuel with
    | zero => rfl
    | succ n =>
      simp only [run]
      rw [finishRec_ctx, clearSources_ctx]
  · cases fuel with
    | zero => rfl
    | succ n => simp only [run]

theorem dispose_destr (c : Nat) (sys : Sys) : (dispose c sys).destr = sys.destr := by
  unfold dispose unwatchW
  split <;> rfl

theorem dispose_cleanupRuns (c : Nat) (sys : Sys) (h : sys.destr c = true) :
    (dispose c sys).cleanupRuns c = sys.cleanupRuns c + 1 := by
  unfold dispose unwatchW
  simp [h, updF]

/-- C10: the disposer returned by `effect` runs the stored cleanup again
on each call and never clears the stored reference, so calling it `n`
times runs the last cleanup `n` more times (disposal is not idempotent
with respect to the cleanup). -/
theorem c10_dispose_runs_cleanup_each_time (sys : Sys) (c n : Nat)
    (h : sys.destr c = true) :
    ((dispose c)^[n] sys).cleanupRuns c = sys.cleanupRuns c + n ∧
    ((dispose c)^[n] sys).destr c = true := by
  induction n with
  | zero => exact ⟨rfl, h⟩
  | succ m ih =>
    rw [Function.iterate_succ_apply']
    refine ⟨?_, ?_⟩
    · rw [dispose_cleanupRuns _ _ ih.2, ih.1, Nat.add_assoc]
    · rw [dispose_destr]; exact ih.2

/-- C10 witness: in the effect scenario (after the first body run stored
a cleanup), calling the disposer twice runs the cleanup twice. -/
theorem c10_witness :
    eff0.destr 0 = true ∧
    ((dispose 0)^[2] eff0).cleanupRuns 0 = eff0.cleanupRuns 0 + 2 :=
  ⟨rfl, (c10_dispose_runs_cleanup_each_time eff0 0 2 rfl).1⟩

/-- C7: a `set` whose new value is identical to the stored one changes
nothing at all: the resulting system is the very same system, so the
stored value, every staleness flag, every dependent and watcher set and
every notification counter are unchanged. -/
theorem c7_set_same_value_noop (s : Nat) (v : Int) (sys : Sys)
    (h : sys.stateVal s = v) : stateSet s v sys = sys := by
  unfold stateSet
  simp [h]

/-- C7 witness: setting state 0 of the one-state system to its current
value 1 is a complete no-op. -/
theorem c7_witness : plainSys.stateVal 0 = 1 ∧ stateSet 0 1 plainSys = plainSys :=
  ⟨rfl, c7_set_same_value_noop 0 1 plainSys rfl⟩

/-- C2: diamond scenario.  With `A = 1`, `D.get()` returns 4 after one
run of `D`'s computation; after `A.set(2)` both `B` and `C` (and `D`)
are stale, and the next `D.get()` returns 7 with `D`'s computation
having run exactly once more (twice in total). -/
theorem c2_diamond_single_recompute :
    (run 99 (.get 2) diamond0).1 = .ok 4 ∧
    diamond1.runs 2 = 1 ∧
    0 ∉ diamond2.freshL ∧ 1 ∉ diamond2.freshL ∧ 2 ∉ diamond2.freshL ∧
    (run 99 (.get 2) diamond2).1 = .ok 7 ∧
    diamond3.runs 2 = 2 :=
  ⟨rfl, rfl, by decide, by decide, by decide, rfl, rfl⟩

/-- C3 counterexample: in the watcher scenario exactly one notification
has arrived since the last `getPending` call, yet two consecutive
`getPending` calls both report the watched cell (the second call does
not return the empty drained set the claim requires, so a pending entry
is reported more than once). -/
theorem c3_counterexample :
    watchSys.notifies 1 = 1 ∧
    (getPendingW 1 watchSys).1 = [Cell.st 0] ∧
    (getPendingW 1 (getPendingW 1 watchSys).2).1 = [Cell.st 0] ∧
    (getPendingW 1 (getPendingW 1 watchSys).2).1 ≠ [] :=
  ⟨rfl, rfl, rfl, by decide⟩

/-- C3 amended: `getPending()` returns the list of currently watched
signals and performs no state change (nothing is cleared), so
consecutive calls return the same list; `_notify` runs the watcher
callback without recording the notifying cell in any pending set (the
watched list is untouched). -/
theorem c3_getPending_returns_watched_without_clearing (sys : Sys) (w v : Nat) :
    (getPendingW w sys).1 = sys.watched w ∧
    (getPendingW w sys).2 = sys ∧
    (getPendingW w (getPendingW w sys).2).1 = (getPendingW w sys).1 ∧
    (notify1 v sys).watched = sys.watched := by
  refine ⟨rfl, rfl, rfl, ?_⟩
  simp only [notify1]
  split
  · split <;> rfl
  · rfl

theorem updF_same {α : Type} (f : Nat → α) (a : Nat) (v : α) : updF f a v a = v := by
  simp [updF]

theorem updF_ne {α : Type} (f : Nat → α) (a : Nat) (v : α) (b : Nat) (h : b ≠ a) :
    updF f a v b = f b := by
  simp [updF, h]

theorem runOnly_comp {a b : Sys} (h : RunOnly a b) : b.comp = a.comp := by rw [h]

theorem runOnly_stateVal {a b : Sys} (h : RunOnly a b) : b.stateVal = a.stateVal := by
  rw [h]

theorem runOnly_isBody {a b : Sys} (h : RunOnly a b) : b.isBody = a.isBody := by rw [h]

theorem wfComp_runOnly {a b : Sys} (hw : wfComp a) (h : RunOnly a b) : wfComp b := by
  intro c
  rw [runOnly_comp h]
  exact hw c

theorem readsBelow_mono {c d : Nat} (hcd : c ≤ d) :
    ∀ e, readsBelow c e = true → readsBelow d e = true := by
  intro e
  induction e with
  | lit n => simp [readsBelow]
  | readS s => simp [readsBelow]
  | readC c' =>
    simp only [readsBelow, decide_eq_true_eq]
    omega
  | add a b iha ihb =>
    simp only [readsBelow, Bool.and_eq_true]
    exact fun h => ⟨iha h.1, ihb h.2⟩
  | mul a b iha ihb =>
    simp only [readsBelow, Bool.and_eq_true]
    exact fun h => ⟨iha h.1, ihb h.2⟩
  | ifz x t f ihx iht ihf =>
    simp only [readsBelow, Bool.and_eq_true]
    exact fun h => ⟨⟨ihx h.1.1, iht h.1.2⟩, ihf h.2⟩
  | untrack e ih => exact ih
  | throwE => simp [readsBelow]

theorem csOnly_comp {a b : Sys} (h : CSOnly a b) : b.comp = a.comp := by rw [h]

theorem valFrame_id (x : Nat) (sys : Sys) (r : Except EErr Int) : ValFrame x sys (r, sys) :=
  ⟨rfl, Iff.rfl, rfl⟩

theorem finishRec_valFrame {x c : Nat} (hxc : x ≠ c) (prev : Option Nat)
    (p : Except EErr Int × Sys) : ValFrame x p.2 (finishRec prev c p) := by
  rcases p with ⟨r, s⟩
  cases r with
  | ok v =>
    refine ⟨updF_ne _ _ _ _ hxc, ?_, rfl⟩
    show x ∈ addN c s.freshL ↔ x ∈ s.freshL
    rw [mem_addN_iff]
    constructor
    · rintro (h | h)
      · exact absurd h hxc
      · exact h
    · exact fun h => Or.inr h
  | error err => exact ⟨rfl, Iff.rfl, rfl⟩

theorem rc_valFrame_aux {x c n : Nat} {sys s4 : Sys} {prev : Option Nat}
    (hxc : x ≠ c)
    (hab : s4.value x = sys.value x ∧ ((x ∈ s4.freshL) ↔ x ∈ sys.freshL) ∧
      s4.runs x = sys.runs x)
    (hmid : ValFrame x s4 (run n (.ev (s4.comp c)) s4)) :
    ValFrame x sys (finishRec prev c (run n (.ev (s4.comp c)) s4)) := by
  have hfin := finishRec_valFrame hxc prev (run n (.ev (s4.comp c)) s4)
  exact ⟨hfin.1.trans (hmid.1.trans hab.1),
    hfin.2.1.trans (hmid.2.1.trans hab.2.1),
    hfin.2.2.trans (hmid.2.2.trans hab.2.2)⟩

theorem valFrame_csOnly {x : Nat} {sys b : Sys} (h : CSOnly sys b) (r : Except EErr Int) :
    ValFrame x sys (r, b) := by
  refine ⟨?_, ?_, ?_⟩ <;> rw [h]

theorem andThen_valFrame {x : Nat} {sys : Sys} {p : Except EErr Int × Sys}
    {k : Int → Sys → Except EErr Int × Sys}
    (hp : ValFrame x sys p) (hk : ∀ v, ValFrame x p.2 (k v p.2)) :
    ValFrame x sys (andThen p k) := by
  rcases p with ⟨r, s⟩
  cases r with
  | ok v =>
    have h2 := hk v
    exact ⟨h2.1.trans hp.1, h2.2.1.trans hp.2.1, h2.2.2.trans hp.2.2⟩
  | error err => exact hp

/-- Bounded-write frame: under a well-founded computation table, an
engine call whose reads stay strictly below `d` never touches the cached
value, the staleness flag or the run counter of any computed at or above
`d`. -/
theorem run_valueFrame (fuel : Nat) : ∀ (call : Call) (sys : Sys) (d : Nat),
    wfComp sys → callBelow call d → ∀ x, d ≤ x →
    ValFrame x sys (run fuel call sys) := by
  induction fuel with
  | zero => intro call sys d _ _ x _; exact valFrame_id x sys _
  | succ n ih =>
    intro call sys d hwf hcb x hdx
    cases call with
    | ev e =>
      cases e with
      | lit v => exact valFrame_id x sys _
      | readS s =>
        simp only [run]
        exact valFrame_csOnly (stateGet_csOnly s sys) _
      | readC c =>
        simp only [run]
        have hc : c < d := by
          simpa [callBelow, readsBelow] using hcb
        exact ih (.get c) sys d hwf hc x hdx
      | add a b =>
        have hab : readsBelow d a = true ∧ readsBelow d b = true := by
          simpa [callBelow, readsBelow, Bool.and_eq_true] using hcb
        simp only [run]
        refine andThen_valFrame (ih (.ev a) sys d hwf hab.1 x hdx) fun v => ?_
        refine andThen_valFrame
          (ih (.ev b) (run n (.ev a) sys).2 d
            (wfComp_runOnly hwf (run_shape n (.ev a) sys).1) hab.2 x hdx) fun v2 => ?_
        exact valFrame_id x _ _
      | mul a b =>
        have hab : readsBelow d a = true ∧ readsBelow d b = true := by
          simpa [callBelow, readsBelow, Bool.and_eq_true] using hcb
        simp only [run]
        refine andThen_valFrame (ih (.ev a) sys d hwf hab.1 x hdx) fun v => ?_
        refine andThen_valFrame
          (ih (.ev b) (run n (.ev a) sys).2 d
            (wfComp_runOnly hwf (run_shape n (.ev a) sys).1) hab.2 x hdx) fun v2 => ?_
        exact valFrame_id x _ _
      | ifz xc t f =>
        have hab : (readsBelow d xc = true ∧ readsBelow d t = true) ∧
            readsBelow d f = true := by
          simpa [callBelow, readsBelow, Bool.and_eq_true] using hcb
        simp only [run]
        refine andThen_valFrame (ih (.ev xc) sys d hwf hab.1.1 x hdx) fun v => ?_
        refine ih (.ev (if v = 0 then t else f)) (run n (.ev xc) sys).2 d
          (wfComp_runOnly hwf (run_shape n (.ev xc) sys).1) ?_ x hdx
        by_cases hv : v = 0 <;> simp [callBelow, hv, hab.1.2, hab.2]
      | untrack inner =>
        have hi : readsBelow d inner = true := hcb
        simp only [run]
        have h := ih (.ev inner) { sys with ctx := none } d hwf hi x hdx
        exact ⟨h.1, h.2.1, h.2.2⟩
      | throwE => exact valFrame_id x sys _
    | get c =>
      have hc : c < d := hcb
      simp only [run]
      split
      · exact valFrame_csOnly (regEdge_csOnly c sys) _
      · rcases hr : run n (.rc c) sys with ⟨r, s1⟩
        have ihh := ih (.rc c) sys d hwf hc x hdx
        rw [hr] at ihh
        cases r with
        | ok v =>
          unfold getAfterRec
          have h2 := valFrame_csOnly (x := x) (regEdge_csOnly c s1)
            (Except.ok ((regEdge c s1).value c |>.getD 0))
          exact ⟨h2.1.trans ihh.1, h2.2.1.trans ihh.2.1, h2.2.2.trans ihh.2.2⟩
        | error err => exact ihh
    | rc c =>
      have hc : c < d := hcb
      have hxc : x ≠ c := by omega
      simp only [run]
      have h1 := clearSources_csOnly c sys
      split <;>
      · refine rc_valFrame_aux hxc ⟨?_, ?_, ?_⟩ ?_
        · exact congrFun (csOnly_value h1) x
        · rw [show (x ∈ (clearSources c sys).freshL) = (x ∈ sys.freshL) from
            by rw [csOnly_freshL h1]]
        · show updF (clearSources c sys).runs c ((clearSources c sys).runs c + 1) x =
            sys.runs x
          rw [updF_ne _ _ _ _ hxc]
          exact congrFun (csOnly_runs h1) x
        · refine ih _ _ d ?_ ?_ x hdx
          · intro c'
            show readsBelow c' ((clearSources c sys).comp c') = true
            rw [csOnly_comp h1]
            exact hwf c'
          · show readsBelow d ((clearSources c sys).comp c) = true
            rw [csOnly_comp h1]
            exact readsBelow_mono (Nat.le_of_lt hc) _ (hwf c)

/-- On the error path of `Computed.#recompute`, the computed's own
cached value and staleness flag are untouched: the value assignment and
the flag clearing are skipped by the throw, and the nested work only
wrote to strictly smaller computeds. -/
theorem rc_error_core {m c : Nat} {sys s4 s5 : Sys} {e : Expr} {e5 : EErr}
    (hq : run m (.ev e) s4 = (.error e5, s5))
    (hval : s4.value = sys.value) (hfL : s4.freshL = sys.freshL)
    (hwf4 : wfComp s4) (hrb : readsBelow c e = true) :
    s5.value c = sys.value c ∧ ((c ∈ s5.freshL) ↔ c ∈ sys.freshL) := by
  have hmid := run_valueFrame m (.ev e) s4 c hwf4 hrb c (Nat.le_refl c)
  rw [hq] at hmid
  constructor
  · rw [hmid.1, hval]
  · rw [hmid.2.1, hfL]

theorem rc_error_frame (n c : Nat) (sys : Sys) (hwf : wfComp sys) (err : EErr)
    (s1 : Sys) (hr : run n (.rc c) sys = (.error err, s1)) :
    s1.value c = sys.value c ∧ (c ∈ s1.freshL ↔ c ∈ sys.freshL) := by
  cases n with
  | zero =>
    have h2 : sys = s1 := congrArg Prod.snd hr
    rw [← h2]
    exact ⟨rfl, Iff.rfl⟩
  | succ m =>
    simp only [run] at hr
    have hcs := clearSources_csOnly c sys
    split at hr <;>
    · rename_i hbd
      rcases hq : run m (.ev ((clearSources c sys).comp c)) _ with ⟨r5, s5⟩
      rw [hq] at hr
      cases r5 with
      | ok v => simp [finishRec] at hr
      | error e5 =>
        have hs1 : { s5 with ctx := (clearSources c sys).ctx } = s1 :=
          congrArg Prod.snd hr
        have hcore := rc_error_core hq
          (by show (clearSources c sys).value = sys.value; exact csOnly_value hcs)
          (by show (clearSources c sys).freshL = sys.freshL; exact csOnly_freshL hcs)
          (by
            intro c'
            show readsBelow c' ((clearSources c sys).comp c') = true
            rw [csOnly_comp hcs]
            exact hwf c')
          (by
            show readsBelow c ((clearSources c sys).comp c) = true
            rw [csOnly_comp hcs]
            exact hwf c)
        refine ⟨?_, ?_⟩
        · rw [← hs1]
          show s5.value c = sys.value c
          exact hcore.1
        · rw [← hs1]
          show (c ∈ s5.freshL) ↔ c ∈ sys.freshL
          exact hcore.2

/-- C4: when a Computed's computation function throws during
recomputation, the exception propagates to the caller of `get()` (the
error result is returned), and afterwards the staleness flag is still
true and the cached value equals what it was before the call (no partial
write), so the next `get()` will run the computation again. -/
theorem c4_throw_keeps_stale_cache (fuel c : Nat) (sys : Sys)
    (hwf : wfComp sys)
    (herr : (run fuel (.get c) sys).1 = .error .thrown) :
    (run fuel (.get c) sys).2.value c = sys.value c ∧
    c ∉ (run fuel (.get c) sys).2.freshL ∧ c ∉ sys.freshL := by
  cases fuel with
  | zero => simp [run] at herr
  | succ n =>
    by_cases hm : c ∈ sys.freshL
    · have : (run (n + 1) (.get c) sys).1 = .ok (((regEdge c sys).value c).getD 0) := by
        simp only [run, if_pos hm]
      rw [this] at herr
      simp at herr
    · simp only [run, if_neg hm] at herr ⊢
      rcases hr : run n (.rc c) sys with ⟨r, s1⟩
      rw [hr] at herr
      cases r with
      | ok v => exact Except.noConfusion herr
      | error err =>
        have hf := rc_error_frame n c sys hwf err s1 hr
        refine ⟨?_, ?_, hm⟩
        · show s1.value c = sys.value c
          exact hf.1
        · show c ∉ s1.freshL
          intro hcontra
          exact hm (hf.2.mp hcontra)

/-- C4 witness: the throwing scenario at fuel 99: the error escapes the
`get`, the cached value (still unset) is unchanged and the computed is
still stale. -/
theorem c4_witness :
    (run 99 (.get 0) throwSys).1 = .error .thrown ∧
    ((run 99 (.get 0) throwSys).2.value 0 = throwSys.value 0 ∧
      0 ∉ (run 99 (.get 0) throwSys).2.freshL ∧ 0 ∉ throwSys.freshL) :=
  ⟨rfl, c4_throw_keeps_stale_cache 99 0 throwSys
    (by intro c; cases c <;> rfl) rfl⟩

theorem delN_idem (c : Nat) (l : List Nat) : delN c (delN c l) = delN c l := by
  unfold delN
  rw [List.filter_filter]
  congr 1
  funext a
  simp

theorem foldl_remDep_stateDeps (c : Nat) (l : List Cell) (sys : Sys) (s : Nat) :
    (l.foldl (remDep c) sys).stateDeps s =
    if Cell.st s ∈ l then delN c (sys.stateDeps s) else sys.stateDeps s := by
  induction l generalizing sys with
  | nil => simp
  | cons x xs ih =>
    rw [List.foldl_cons, ih]
    cases x with
    | st sid =>
      by_cases hs : s = sid
      · subst hs
        have h1 : (remDep c sys (.st s)).stateDeps s = delN c (sys.stateDeps s) := by
          show updF sys.stateDeps s (delN c (sys.stateDeps s)) s = _
          exact updF_same _ _ _
        rw [h1]
        simp only [List.mem_cons, true_or, if_pos, delN_idem]
        split <;> simp [delN_idem]
      · have h1 : (remDep c sys (.st sid)).stateDeps s = sys.stateDeps s := by
          show updF sys.stateDeps sid (delN c (sys.stateDeps sid)) s = _
          exact updF_ne _ _ _ _ hs
        rw [h1]
        have h2 : (Cell.st s ∈ Cell.st sid :: xs) ↔ (Cell.st s ∈ xs) := by
          simp [Cell.st.injEq, hs]
        rw [if_congr h2 rfl rfl]
    | cp cid =>
      have h1 : (remDep c sys (.cp cid)).stateDeps s = sys.stateDeps s := rfl
      rw [h1]
      have h2 : (Cell.st s ∈ Cell.cp cid :: xs) ↔ (Cell.st s ∈ xs) := by simp
      rw [if_congr h2 rfl rfl]

theorem foldl_remDep_compDeps (c : Nat) (l : List Cell) (sys : Sys) (c'' : Nat) :
    (l.foldl (remDep c) sys).compDeps c'' =
    if Cell.cp c'' ∈ l then delN c (sys.compDeps c'') else sys.compDeps c'' := by
  induction l generalizing sys with
  | nil => simp
  | cons x xs ih =>
    rw [List.foldl_cons, ih]
    cases x with
    | cp cid =>
      by_cases hs : c'' = cid
      · subst hs
        have h1 : (remDep c sys (.cp c'')).compDeps c'' = delN c (sys.compDeps c'') := by
          show updF sys.compDeps c'' (delN c (sys.compDeps c'')) c'' = _
          exact updF_same _ _ _
        rw [h1]
        simp only [List.mem_cons, true_or, if_pos]
        split <;> simp [delN_idem]
      · have h1 : (remDep c sys (.cp cid)).compDeps c'' = sys.compDeps c'' := by
          show updF sys.compDeps cid (delN c (sys.compDeps cid)) c'' = _
          exact updF_ne _ _ _ _ hs
        rw [h1]
        have h2 : (Cell.cp c'' ∈ Cell.cp cid :: xs) ↔ (Cell.cp c'' ∈ xs) := by
          simp [Cell.cp.injEq, hs]
        rw [if_congr h2 rfl rfl]
    | st sid =>
      have h1 : (remDep c sys (.st sid)).compDeps c'' = sys.compDeps c'' := rfl
      rw [h1]
      have h2 : (Cell.cp c'' ∈ Cell.st sid :: xs) ↔ (Cell.cp c'' ∈ xs) := by simp
      rw [if_congr h2 rfl rfl]

theorem foldl_remDep_sources (c : Nat) (l : List Cell) (sys : Sys) :
    (l.foldl (remDep c) sys).sources = sys.sources := by
  have h := foldl_remDep_depsOnly c l sys
  rw [h]

theorem clearSources_stateDeps (c : Nat) (sys : Sys) (s : Nat) :
    (clearSources c sys).stateDeps s =
    if Cell.st s ∈ sys.sources c then delN c (sys.stateDeps s) else sys.stateDeps s := by
  show ((sys.sources c).foldl (remDep c) sys).stateDeps s = _
  exact foldl_remDep_stateDeps c _ sys s

theorem clearSources_compDeps (c : Nat) (sys : Sys) (c'' : Nat) :
    (clearSources c sys).compDeps c'' =
    if Cell.cp c'' ∈ sys.sources c then delN c (sys.compDeps c'') else sys.compDeps c'' := by
  show ((sys.sources c).foldl (remDep c) sys).compDeps c'' = _
  exact foldl_remDep_compDeps c _ sys c''

theorem clearSources_sources (c : Nat) (sys : Sys) (d : Nat) :
    (clearSources c sys).sources d = if d = c then [] else sys.sources d := by
  show updF ((sys.sources c).foldl (remDep c) sys).sources c [] d = _
  rw [foldl_remDep_sources]
  unfold updF
  rfl

theorem stateGet_recip (s : Nat) (sys : Sys) (h : Recip sys) :
    Recip (stateGet s sys).2 := by
  unfold stateGet
  cases hctx : sys.ctx with
  | none => exact h
  | some d =>
    constructor
    · intro s' c'
      show c' ∈ updF sys.stateDeps s (addN d (sys.stateDeps s)) s' ↔
        Cell.st s' ∈ updF sys.sources d (addCell (.st s) (sys.sources d)) c'
      unfold updF
      by_cases hs : s' = s <;> by_cases hc : c' = d <;>
        simp [hs, hc, mem_addN_iff, mem_addCell_iff, h.1, Cell.st.injEq]
    · intro c'' c'
      show c' ∈ sys.compDeps c'' ↔
        Cell.cp c'' ∈ updF sys.sources d (addCell (.st s) (sys.sources d)) c'
      unfold updF
      by_cases hc : c' = d <;>
        simp [hc, mem_addCell_iff, h.2, Cell.cp.injEq]

theorem regEdge_recip (c : Nat) (sys : Sys) (h : Recip sys) : Recip (regEdge c sys) := by
  unfold regEdge
  cases hctx : sys.ctx with
  | none => exact h
  | some d =>
    constructor
    · intro s' c'
      show c' ∈ sys.stateDeps s' ↔
        Cell.st s' ∈ updF sys.sources d (addCell (.cp c) (sys.sources d)) c'
      unfold updF
      by_cases hc : c' = d <;>
        simp [hc, mem_addCell_iff, h.1, Cell.st.injEq]
    · intro c'' c'
      show c' ∈ updF sys.compDeps c (addN d (sys.compDeps c)) c'' ↔
        Cell.cp c'' ∈ updF sys.sources d (addCell (.cp c) (sys.sources d)) c'
      unfold updF
      by_cases hs : c'' = c <;> by_cases hc : c' = d <;>
        simp [hs, hc, mem_addN_iff, mem_addCell_iff, h.2, Cell.cp.injEq]

theorem clearSources_recip (c : Nat) (sys : Sys) (h : Recip sys) :
    Recip (clearSources c sys) := by
  constructor
  · intro s' c'
    rw [clearSources_stateDeps, clearSources_sources]
    by_cases hc : c' = c
    · rw [if_pos hc]
      simp only [List.not_mem_nil, iff_false]
      split
      · rw [mem_delN_iff]
        rintro ⟨-, hne⟩
        exact hne hc
      · rename_i hns
        intro hmem
        exact hns (hc ▸ (h.1 s' c').mp hmem)
    · rw [if_neg hc]
      split
      · rw [mem_delN_iff, h.1 s' c']
        simp [hc]
      · exact h.1 s' c'
  · intro c'' c'
    rw [clearSources_compDeps, clearSources_sources]
    by_cases hc : c' = c
    · rw [if_pos hc]
      simp only [List.not_mem_nil, iff_false]
      split
      · rw [mem_delN_iff]
        rintro ⟨-, hne⟩
        exact hne hc
      · rename_i hns
        intro hmem
        exact hns (hc ▸ (h.2 c'' c').mp hmem)
    · rw [if_neg hc]
      split
      · rw [mem_delN_iff, h.2 c'' c']
        simp [hc]
      · exact h.2 c'' c'

theorem finishRec_recip (prev : Option Nat) (c : Nat) (p : Except EErr Int × Sys)
    (h : Recip p.2) : Recip (finishRec prev c p).2 := by
  rcases p with ⟨r, s⟩
  cases r <;> exact h

theorem andThen_recip {p : Except EErr Int × Sys}
    {k : Int → Sys → Except EErr Int × Sys}
    (hp : Recip p.2) (hk : ∀ v, Recip p.2 → Recip (k v p.2).2) :
    Recip (andThen p k).2 := by
  rcases p with ⟨r, s⟩
  cases r with
  | ok v => exact hk v hp
  | error err => exact hp

/-- Reciprocity of dependency edges is preserved by every engine call:
edges are always added and removed in matched pairs. -/
theorem recip_run (fuel : Nat) : ∀ (call : Call) (sys : Sys),
    Recip sys → Recip (run fuel call sys).2 := by
  induction fuel with
  | zero => intro call sys h; exact h
  | succ n ih =>
    intro call sys h
    cases call with
    | ev e =>
      cases e with
      | lit v => exact h
      | readS s =>
        simp only [run]
        exact stateGet_recip s sys h
      | readC c =>
        simp only [run]
        exact ih (.get c) sys h
      | add a b =>
        simp only [run]
        exact andThen_recip (ih _ sys h) fun v hp =>
          andThen_recip (ih _ _ hp) fun v2 hp2 => hp2
      | mul a b =>
        simp only [run]
        exact andThen_recip (ih _ sys h) fun v hp =>
          andThen_recip (ih _ _ hp) fun v2 hp2 => hp2
      | ifz xc t f =>
        simp only [run]
        exact andThen_recip (ih _ sys h) fun v hp => ih _ _ hp
      | untrack inner =>
        simp only [run]
        exact ih (.ev inner) { sys with ctx := none } h
      | throwE => exact h
    | get c =>
      simp only [run]
      split
      · exact regEdge_recip c sys h
      · rcases hr : run n (.rc c) sys with ⟨r, s1⟩
        have ihh := ih (.rc c) sys h
        rw [hr] at ihh
        cases r with
        | ok v => exact regEdge_recip c s1 ihh
        | error err => exact ihh
    | rc c =>
      simp only [run]
      split <;>
      · exact finishRec_recip _ c _ (ih (.ev _) _ (clearSources_recip c sys h))

theorem markOnly_stateDeps {a b : Sys} (h : MarkOnly a b) : b.stateDeps = a.stateDeps := by
  rw [h]

theorem markOnly_compDeps {a b : Sys} (h : MarkOnly a b) : b.compDeps = a.compDeps := by
  rw [h]

theorem markOnly_sources {a b : Sys} (h : MarkOnly a b) : b.sources = a.sources := by
  rw [h]

theorem recip_markOnly {a b : Sys} (h : MarkOnly a b) (hr : Recip a) : Recip b := by
  unfold Recip
  rw [markOnly_stateDeps h, markOnly_compDeps h, markOnly_sources h]
  exact hr

theorem notify1_markOnly (w : Nat) (sys : Sys) : MarkOnly sys (notify1 w sys) := by
  simp only [notify1]
  split
  · split
    · exact rfl
    · exact rfl
  · exact rfl

theorem notifyList_markOnly (ws : List Nat) : ∀ sys : Sys,
    MarkOnly sys (notifyList ws sys) := by
  induction ws with
  | nil => intro sys; exact markOnly_refl sys
  | cons w ws ih =>
    intro sys
    show MarkOnly sys (notifyList ws (notify1 w sys))
    exact markOnly_trans (notify1_markOnly w sys) (ih (notify1 w sys))

theorem markMany_markOnly (fuel : Nat) : ∀ (cs : List Nat) (sys : Sys),
    MarkOnly sys (markMany fuel cs sys) := by
  induction fuel with
  | zero =>
    intro cs sys
    cases cs with
    | nil => exact markOnly_refl sys
    | cons c cs => exact markOnly_refl sys
  | succ n ih =>
    intro cs sys
    cases cs with
    | nil => exact markOnly_refl sys
    | cons c cs =>
      simp only [markMany]
      split
      · exact markOnly_trans (rfl : MarkOnly sys { sys with freshL := delN c sys.freshL })
          (markOnly_trans (ih _ _)
            (markOnly_trans (notifyList_markOnly _ _) (ih _ _)))
      · exact ih cs sys

theorem setOnly_markOnly_trans {a b c : Sys} (h1 : SetOnly a b) (h2 : MarkOnly b c) :
    SetOnly a c := by
  unfold SetOnly at *
  unfold MarkOnly at h2
  rw [h2, h1]

theorem stateSet_setOnly (s : Nat) (v : Int) (sys : Sys) :
    SetOnly sys (stateSet s v sys) := by
  unfold stateSet
  split
  · exact rfl
  · exact setOnly_markOnly_trans
      (setOnly_markOnly_trans
        (rfl : SetOnly sys { sys with stateVal := updF sys.stateVal s v })
        (markMany_markOnly _ _ _))
      (notifyList_markOnly _ _)

theorem setOnly_recip {a b : Sys} (h : SetOnly a b) (hr : Recip a) : Recip b := by
  unfold Recip
  rw [show b.stateDeps = a.stateDeps from by rw [h],
    show b.compDeps = a.compDeps from by rw [h],
    show b.sources = a.sources from by rw [h]]
  exact hr

theorem watchW_recip (w : Nat) (x : Cell) (sys : Sys) (h : Recip sys) :
    Recip (watchW w x sys) := by
  unfold watchW
  cases x <;> exact h

theorem unwatchW_recip (w : Nat) (x : Cell) (sys : Sys) (h : Recip sys) :
    Recip (unwatchW w x sys) := by
  unfold unwatchW
  cases x <;> exact h

theorem dispose_recip (c : Nat) (sys : Sys) (h : Recip sys) : Recip (dispose c sys) := by
  unfold dispose
  split
  · exact unwatchW_recip 0 _ _ h
  · exact unwatchW_recip 0 _ _ h

theorem drainStep_recip (fuel : Nat) (acc : Except EErr Unit × Sys) (x : Cell)
    (h : Recip acc.2) : Recip (drainStep fuel acc x).2 := by
  rcases acc with ⟨r, s⟩
  cases r with
  | error err => exact h
  | ok u =>
    cases x with
    | st sid => exact stateGet_recip sid s h
    | cp cid =>
      show Recip (match run fuel (.get cid) s with
        | (.ok _, s1) => ((.ok () : Except EErr Unit), s1)
        | (.error err, s1) => (.error err, s1)).2
      rcases hr : run fuel (.get cid) s with ⟨r1, s1⟩
      have := recip_run fuel (.get cid) s h
      rw [hr] at this
      cases r1 <;> exact this

theorem foldl_drainStep_recip (fuel : Nat) (l : List Cell) :
    ∀ acc : Except EErr Unit × Sys, Recip acc.2 →
    Recip (l.foldl (drainStep fuel) acc).2 := by
  induction l with
  | nil => intro acc h; exact h
  | cons x xs ih =>
    intro acc h
    rw [List.foldl_cons]
    exact ih _ (drainStep_recip fuel acc x h)

theorem foldl_rewatch_recip (l : List Cell) : ∀ sys : Sys, Recip sys →
    Recip (l.foldl rewatchStep sys) := by
  induction l with
  | nil => intro sys h; exact h
  | cons x xs ih =>
    intro sys h
    rw [List.foldl_cons]
    exact ih _ (watchW_recip 0 x sys h)

theorem drainLoop_recip (fuel : Nat) (sys0 : Sys) (h : Recip sys0) :
    Recip (drainLoop fuel sys0).2 := by
  unfold drainLoop
  rcases hs : (getPendingW 0 sys0).1.foldl (drainStep fuel) (Except.ok (), sys0)
    with ⟨r, s⟩
  have hrec : Recip s := by
    have h2 := foldl_drainStep_recip fuel (getPendingW 0 sys0).1 (Except.ok (), sys0) h
    rw [hs] at h2
    exact h2
  cases r with
  | ok u => exact foldl_rewatch_recip _ s hrec
  | error err => exact hrec

theorem runDrain_recip (fuel : Nat) (sys : Sys) (h : Recip sys) :
    Recip (runDrain fuel sys).2 :=
  drainLoop_recip fuel _ h

theorem applyOp_recip (op : Op) (sys : Sys) (h : Recip sys) : Recip (applyOp op sys) := by
  cases op with
  | oset s v => exact setOnly_recip (stateSet_setOnly s v sys) h
  | oget c fuel => exact recip_run fuel (.get c) sys h
  | ogetS s => exact stateGet_recip s sys h
  | ountr e fuel =>
    show Recip { (run fuel (.ev e) { sys with ctx := none }).2 with ctx := sys.ctx }
    exact recip_run fuel (.ev e) { sys with ctx := none } h
  | owatch w x => exact watchW_recip w x sys h
  | ounwatch w x => exact unwatchW_recip w x sys h
  | oeffect c fuel => exact recip_run fuel (.get c) _ (watchW_recip 0 _ sys h)
  | odrain fuel =>
    show Recip (if sys.drainQ = 0 then sys else (runDrain fuel sys).2)
    split
    · exact h
    · exact runDrain_recip fuel sys h
  | odispose c => exact dispose_recip c sys h

theorem applyOps_recip (ops : List Op) : ∀ sys : Sys, Recip sys →
    Recip (applyOps ops sys) := by
  induction ops with
  | nil => intro sys h; exact h
  | cons op ops ih =>
    intro sys h
    show Recip (applyOps ops (applyOp op sys))
    exact ih _ (applyOp_recip op sys h)

theorem init_recip (cmp : Nat → Expr) (body ret : Nat → Bool) (vals : Nat → Int) :
    Recip (init cmp body ret vals) := by
  constructor
  · intro s c
    simp [init]
  · intro c' c
    simp [init]

/-- C9: in every state reachable by a sequence of public operations from
an initial system, dependency edges are reciprocal: a computed is in a
cell's dependent set exactly when the cell is in the computed's source
set (so a cell never retains a dependent that has stopped depending on
it). -/
theorem c9_reciprocal_edges (sys : Sys) (h : Reaches sys) : Recip sys := by
  obtain ⟨cmp, body, ret, vals, ops, heq⟩ := h
  rw [← heq]
  exact applyOps_recip ops _ (init_recip cmp body ret vals)

/-- C9 witness: the diamond system after its first `D.get()` is
reachable, and its edges are reciprocal. -/
theorem c9_witness : Recip diamond1 :=
  c9_reciprocal_edges diamond1
    ⟨diamondComp, fun _ => false, fun _ => false, fun _ => 1, [.oget 2 99], rfl⟩

theorem markOnly_cpW {a b : Sys} (h : MarkOnly a b) : b.cpW = a.cpW := by rw [h]

theorem markOnly_wSched {a b : Sys} (h : MarkOnly a b) : b.wSched = a.wSched := by rw [h]

theorem notify1_freshL (w : Nat) (sys : Sys) : (notify1 w sys).freshL = sys.freshL := by
  simp only [notify1]
  split
  · split <;> rfl
  · rfl

theorem notifyList_freshL (ws : List Nat) : ∀ sys : Sys,
    (notifyList ws sys).freshL = sys.freshL := by
  induction ws with
  | nil => intro sys; rfl
  | cons w ws ih =>
    intro sys
    show (notifyList ws (notify1 w sys)).freshL = sys.freshL
    rw [ih, notify1_freshL]

theorem notify1_pending_mono (w : Nat) (sys : Sys) (h : sys.pending = true) :
    (notify1 w sys).pending = true := by
  simp only [notify1]
  split <;> exact h

theorem notifyList_pending_mono (ws : List Nat) : ∀ sys : Sys, sys.pending = true →
    (notifyList ws sys).pending = true := by
  induction ws with
  | nil => intro sys h; exact h
  | cons w ws ih =>
    intro sys h
    show (notifyList ws (notify1 w sys)).pending = true
    exact ih _ (notify1_pending_mono w sys h)

theorem markMany_pending_mono (fuel : Nat) : ∀ (cs : List Nat) (sys : Sys),
    sys.pending = true → (markMany fuel cs sys).pending = true := by
  induction fuel with
  | zero => intro cs sys h; cases cs <;> exact h
  | succ n ih =>
    intro cs sys h
    cases cs with
    | nil => exact h
    | cons c cs =>
      simp only [markMany]
      split
      · exact ih _ _ (notifyList_pending_mono _ _ (ih _ _ h))
      · exact ih _ _ h

theorem notify1_pending_set (w : Nat) (sys : Sys) (h : sys.wSched w = true) :
    (notify1 w sys).pending = true := by
  simp only [notify1]
  rw [if_pos h]
  split
  · assumption
  · rfl

theorem notify1_wSched (w : Nat) (sys : Sys) : (notify1 w sys).wSched = sys.wSched :=
  markOnly_wSched (notify1_markOnly w sys)

theorem notifyList_pending_set (ws : List Nat) : ∀ (sys : Sys) (w : Nat), w ∈ ws →
    sys.wSched w = true → (notifyList ws sys).pending = true := by
  induction ws with
  | nil => intro sys w h; exact absurd h (List.not_mem_nil w)
  | cons w' ws ih =>
    intro sys w hmem hw
    show (notifyList ws (notify1 w' sys)).pending = true
    rcases List.mem_cons.mp hmem with he | hm
    · subst he
      exact notifyList_pending_mono ws _ (notify1_pending_set w sys hw)
    · refine ih _ w hm ?_
      rw [notify1_wSched]
      exact hw

/-- A stale-marking walk that flips `c0` (fresh before, stale after)
notifies `c0`'s watchers; if one of them is the scheduling watcher, the
`pending` flag is set by the end of the walk. -/
theorem markMany_flip_pending (fuel : Nat) : ∀ (cs : List Nat) (sys : Sys) (c0 w : Nat),
    w ∈ sys.cpW c0 → sys.wSched w = true → c0 ∈ sys.freshL →
    c0 ∉ (markMany fuel cs sys).freshL → (markMany fuel cs sys).pending = true := by
  induction fuel with
  | zero =>
    intro cs sys c0 w _ _ hin hout
    cases cs with
    | nil => exact absurd hin hout
    | cons c cs => exact absurd hin hout
  | succ n ih =>
    intro cs sys c0 w hw hsch hin hout
    cases cs with
    | nil => exact absurd hin hout
    | cons c cs =>
      simp only [markMany] at hout ⊢
      by_cases hcf : c ∈ sys.freshL
      · rw [if_pos hcf] at hout ⊢
        by_cases hc0 : c = c0
        · subst hc0
          refine markMany_pending_mono n cs _ ?_
          refine notifyList_pending_set _ _ w ?_ ?_
          · rw [markOnly_cpW (markMany_markOnly n _ _)]
            exact hw
          · rw [markOnly_wSched (markMany_markOnly n _ _)]
            exact hsch
        · have hin1 : c0 ∈ ({ sys with freshL := delN c sys.freshL } : Sys).freshL := by
            show c0 ∈ delN c sys.freshL
            rw [mem_delN_iff]
            exact ⟨hin, fun he => hc0 he.symm⟩
          by_cases hmid : c0 ∈ (markMany n
              (({ sys with freshL := delN c sys.freshL } : Sys).compDeps c)
              { sys with freshL := delN c sys.freshL }).freshL
          · -- still fresh after the nested walk: the flip happened later
            refine ih cs _ c0 w ?_ ?_ ?_ hout
            · rw [markOnly_cpW (notifyList_markOnly _ _),
                markOnly_cpW (markMany_markOnly n _ _)]
              exact hw
            · rw [markOnly_wSched (notifyList_markOnly _ _),
                markOnly_wSched (markMany_markOnly n _ _)]
              exact hsch
            · rw [notifyList_freshL]
              exact hmid
          · -- flipped during the nested walk
            refine markMany_pending_mono n cs _ (notifyList_pending_mono _ _ ?_)
            exact ih _ _ c0 w hw hsch hin1 hmid
      · rw [if_neg hcf] at hout ⊢
        exact ih cs sys c0 w hw hsch hin hout

theorem notify1_drainQ_inv (w : Nat) (sys : Sys)
    (h : sys.drainQ = if sys.pending then 1 else 0) :
    (notify1 w sys).drainQ = if (notify1 w sys).pending then 1 else 0 := by
  simp only [notify1]
  by_cases hw : sys.wSched w = true
  · rw [if_pos hw]
    by_cases hp : sys.pending = true
    · rw [if_pos hp]
      exact h
    · rw [if_neg hp]
      show sys.drainQ + 1 = _
      rw [h]
      simp only [Bool.not_eq_true] at hp
      rw [hp]
      rfl
  · rw [if_neg hw]
    exact h

theorem notifyList_drainQ_inv (ws : List Nat) : ∀ sys : Sys,
    sys.drainQ = (if sys.pending then 1 else 0) →
    (notifyList ws sys).drainQ = if (notifyList ws sys).pending then 1 else 0 := by
  induction ws with
  | nil => intro sys h; exact h
  | cons w ws ih =>
    intro sys h
    show (notifyList ws (notify1 w sys)).drainQ = _
    exact ih _ (notify1_drainQ_inv w sys h)

theorem markMany_drainQ_inv (fuel : Nat) : ∀ (cs : List Nat) (sys : Sys),
    sys.drainQ = (if sys.pending then 1 else 0) →
    (markMany fuel cs sys).drainQ = if (markMany fuel cs sys).pending then 1 else 0 := by
  induction fuel with
  | zero => intro cs sys h; cases cs <;> exact h
  | succ n ih =>
    intro cs sys h
    cases cs with
    | nil => exact h
    | cons c cs =>
      simp only [markMany]
      split
      · exact ih _ _ (notifyList_drainQ_inv _ _ (ih _ _ h))
      · exact ih _ _ h

theorem upReach_congr {a b : Sys} (h : a.compDeps = b.compDeps) {roots : List Nat}
    {c : Nat} (hr : UpReach a roots c) : UpReach b roots c := by
  induction hr with
  | base c hc => exact UpReach.base c hc
  | step x c hx hc ih => exact UpReach.step x c ih (h ▸ hc)

theorem upReach_roots_mono {sys : Sys} {roots roots' : List Nat} {c : Nat}
    (hsub : ∀ x, x ∈ roots → x ∈ roots') (hr : UpReach sys roots c) :
    UpReach sys roots' c := by
  induction hr with
  | base c hc => exact UpReach.base c (hsub c hc)
  | step x c hx hc ih => exact UpReach.step x c ih hc

theorem upReach_deps {sys : Sys} {x : Nat} {roots : List Nat} {c : Nat}
    (hx : x ∈ roots) (hr : UpReach sys (sys.compDeps x) c) : UpReach sys roots c := by
  induction hr with
  | base c hc => exact UpReach.step x c (UpReach.base x hx) hc
  | step y c hy hc ih => exact UpReach.step y c ih hc

/-- Soundness of the stale-marking walk: a computed that is not upward
reachable from the worklist through dependent edges keeps its staleness
flag unchanged. -/
theorem markMany_unreachable (fuel : Nat) : ∀ (cs : List Nat) (sys : Sys) (c : Nat),
    ¬ UpReach sys cs c →
    ((c ∈ (markMany fuel cs sys).freshL) ↔ c ∈ sys.freshL) := by
  induction fuel with
  | zero => intro cs sys c _; cases cs <;> exact Iff.rfl
  | succ n ih =>
    intro cs sys c h
    cases cs with
    | nil => exact Iff.rfl
    | cons c' cs =>
      simp only [markMany]
      split
      · rename_i hcf
        have hcc' : c ≠ c' := by
          intro he
          exact h (UpReach.base c (by rw [he]; exact List.mem_cons_self c' cs))
        have h1 : (c ∈ ({ sys with freshL := delN c' sys.freshL } : Sys).freshL) ↔
            c ∈ sys.freshL := by
          show (c ∈ delN c' sys.freshL) ↔ _
          rw [mem_delN_iff]
          simp [hcc']
        have hnest : ¬ UpReach { sys with freshL := delN c' sys.freshL }
            (({ sys with freshL := delN c' sys.freshL } : Sys).compDeps c') c := by
          intro hre
          have hre2 : UpReach sys (sys.compDeps c') c := by
            refine upReach_congr ?_ hre
            rfl
          exact h (upReach_deps (List.mem_cons_self c' cs) hre2)
        have h2 := ih _ _ c hnest
        have hnot3 : ¬ UpReach (notifyList
            ((markMany n (({ sys with freshL := delN c' sys.freshL } : Sys).compDeps c')
              { sys with freshL := delN c' sys.freshL }).cpW c')
            (markMany n (({ sys with freshL := delN c' sys.freshL } : Sys).compDeps c')
              { sys with freshL := delN c' sys.freshL })) cs c := by
          intro hre
          refine h (upReach_roots_mono (fun x hx => List.mem_cons_of_mem c' hx) ?_)
          refine upReach_congr ?_ hre
          rw [markOnly_compDeps (notifyList_markOnly _ _),
            markOnly_compDeps (markMany_markOnly n _ _)]
        have h4 := ih cs _ c hnot3
        rw [h4, notifyList_freshL, h2, h1]
      · rename_i hcf
        refine Iff.trans (ih cs sys c ?_) Iff.rfl
        intro hre
        exact h (upReach_roots_mono (fun x hx => List.mem_cons_of_mem c' hx) hre)

theorem markMany_freshMono (fuel : Nat) : ∀ (cs : List Nat) (sys : Sys) (c : Nat),
    c ∈ (markMany fuel cs sys).freshL → c ∈ sys.freshL := by
  induction fuel with
  | zero => intro cs sys c h; cases cs <;> exact h
  | succ n ih =>
    intro cs sys c h
    cases cs with
    | nil => exact h
    | cons c' cs =>
      simp only [markMany] at h
      split at h
      · have h1 := ih cs _ c h
        rw [notifyList_freshL] at h1
        have h2 := ih _ _ c h1
        have h3 : c ∈ delN c' sys.freshL := h2
        exact ((mem_delN_iff c c' sys.freshL).mp h3).1
      · exact ih cs sys c h

theorem stateGet_ctx (s : Nat) (sys : Sys) : (stateGet s sys).2.ctx = sys.ctx :=
  csOnly_ctx (stateGet_csOnly s sys)

theorem finishRec_sources (prev : Option Nat) (c : Nat) (p : Except EErr Int × Sys) :
    (finishRec prev c p).2.sources = p.2.sources := by
  rcases p with ⟨r, s⟩
  cases r <;> rfl

theorem sOnly_parts_add {s : Nat} {a b : Expr} (h : sOnly s (.add a b) = true) :
    sOnly s a = true ∧ sOnly s b = true := by
  simpa [sOnly, Bool.and_eq_true] using h

theorem sOnly_parts_mul {s : Nat} {a b : Expr} (h : sOnly s (.mul a b) = true) :
    sOnly s a = true ∧ sOnly s b = true := by
  simpa [sOnly, Bool.and_eq_true] using h

theorem sOnly_parts_ifz {s : Nat} {x t f : Expr} (h : sOnly s (.ifz x t f) = true) :
    (sOnly s x = true ∧ sOnly s t = true) ∧ sOnly s f = true := by
  simpa [sOnly, Bool.and_eq_true] using h

/-- Discipline of source-set writes during evaluation, at one state
cell `s` and one observer computed `d`: under a well-founded computation
table, (1) an expression whose reads stay below `d`, evaluated while `d`
is the tracking context, adds `.st s` to `d`'s source set only through a
tracked read of `s` (so never, when every read of `s` sits inside an
untrack scope); (2) the same evaluation with a different tracking
context leaves `d`'s source set untouched; similarly for `get` calls on
computeds below `d`; (3) a recomputation of `c < d` leaves `d`'s source
set untouched; and (4) a recomputation of `c` whose computation reads
`s` only inside untrack never ends with `.st s` in `c`'s source set. -/
theorem run_sources_discipline (s : Nat) (fuel : Nat) : ∀ (sys : Sys), wfComp sys →
    (∀ e d, readsBelow d e = true →
      (sys.ctx = some d → sOnly s e = true →
        ((Cell.st s ∈ (run fuel (.ev e) sys).2.sources d) ↔ Cell.st s ∈ sys.sources d)) ∧
      (sys.ctx ≠ some d → (run fuel (.ev e) sys).2.sources d = sys.sources d)) ∧
    (∀ c d, c < d →
      (sys.ctx = some d →
        ((Cell.st s ∈ (run fuel (.get c) sys).2.sources d) ↔ Cell.st s ∈ sys.sources d)) ∧
      (sys.ctx ≠ some d → (run fuel (.get c) sys).2.sources d = sys.sources d)) ∧
    (∀ c d, c < d → (run fuel (.rc c) sys).2.sources d = sys.sources d) := by
  induction fuel with
  | zero =>
    intro sys hwf
    exact ⟨fun e d _ => ⟨fun _ _ => Iff.rfl, fun _ => rfl⟩,
      fun c d _ => ⟨fun _ => Iff.rfl, fun _ => rfl⟩,
      fun c d _ => rfl⟩
  | succ n ih =>
    intro sys hwf
    refine ⟨?_, ?_, ?_⟩
    · -- expressions
      intro e d hrb
      cases e with
      | lit v => exact ⟨fun _ _ => Iff.rfl, fun _ => rfl⟩
      | throwE => exact ⟨fun _ _ => Iff.rfl, fun _ => rfl⟩
      | readS s' =>
        constructor
        · intro hctx hon
          show (Cell.st s ∈ (stateGet s' sys).2.sources d) ↔ _
          unfold stateGet
          rw [hctx]
          show (Cell.st s ∈ updF sys.sources d (addCell (.st s') (sys.sources d)) d) ↔ _
          rw [updF_same, mem_addCell_iff]
          have hne : s' ≠ s := by simpa [sOnly] using hon
          simp [Cell.st.injEq, Ne.symm hne]
        · intro hctx
          show (stateGet s' sys).2.sources d = _
          unfold stateGet
          cases hc : sys.ctx with
          | none => rfl
          | some d0 =>
            have hdd : d0 ≠ d := by
              intro he
              exact hctx (by rw [hc, he])
            show updF sys.sources d0 (addCell (.st s') (sys.sources d0)) d = _
            rw [updF_ne _ _ _ _ (Ne.symm hdd)]
      | readC c' =>
        have hc' : c' < d := by simpa [readsBelow] using hrb
        exact ⟨fun hctx _ => ((ih sys hwf).2.1 c' d hc').1 hctx,
          fun hctx => ((ih sys hwf).2.1 c' d hc').2 hctx⟩
      | add a b =>
        have hab : readsBelow d a = true ∧ readsBelow d b = true := by
          simpa [readsBelow, Bool.and_eq_true] using hrb
        simp only [run]
        rcases hr1 : run n (.ev a) sys with ⟨r1, s1⟩
        have hsh1 := run_shape n (.ev a) sys
        rw [hr1] at hsh1
        have hwf1 : wfComp s1 := wfComp_runOnly hwf hsh1.1
        have ha := (ih sys hwf).1 a d hab.1
        rw [hr1] at ha
        cases r1 with
        | error err =>
          constructor
          · intro hctx hon
            show (Cell.st s ∈ s1.sources d) ↔ _
            exact ha.1 hctx (sOnly_parts_add hon).1
          · intro hctx
            show s1.sources d = _
            exact ha.2 hctx
        | ok v1 =>
          rcases hr2 : run n (.ev b) s1 with ⟨r2, s2⟩
          have hb := (ih s1 hwf1).1 b d hab.2
          rw [hr2] at hb
          have hctx1 : s1.ctx = sys.ctx := hsh1.2.1
          have hout : (andThen ((Except.ok v1 : Except EErr Int), s1) fun va sys1 =>
              andThen (run n (.ev b) sys1) fun vb sys2 =>
                ((Except.ok (va + vb) : Except EErr Int), sys2)).2 = s2 := by
            show (andThen (run n (.ev b) s1) fun vb sys2 =>
              ((Except.ok (v1 + vb) : Except EErr Int), sys2)).2 = s2
            rw [hr2]
            cases r2 <;> rfl
          constructor
          · intro hctx hon
            rw [hout]
            rw [hb.1 (by rw [hctx1]; exact hctx) (sOnly_parts_add hon).2]
            exact ha.1 hctx (sOnly_parts_add hon).1
          · intro hctx
            rw [hout]
            rw [hb.2 (by rw [hctx1]; exact hctx)]
            exact ha.2 hctx
      | mul a b =>
        have hab : readsBelow d a = true ∧ readsBelow d b = true := by
          simpa [readsBelow, Bool.and_eq_true] using hrb
        simp only [run]
        rcases hr1 : run n (.ev a) sys with ⟨r1, s1⟩
        have hsh1 := run_shape n (.ev a) sys
        rw [hr1] at hsh1
        have hwf1 : wfComp s1 := wfComp_runOnly hwf hsh1.1
        have ha := (ih sys hwf).1 a d hab.1
        rw [hr1] at ha
        cases r1 with
        | error err =>
          constructor
          · intro hctx hon
            show (Cell.st s ∈ s1.sources d) ↔ _
            exact ha.1 hctx (sOnly_parts_mul hon).1
          · intro hctx
            show s1.sources d = _
            exact ha.2 hctx
        | ok v1 =>
          rcases hr2 : run n (.ev b) s1 with ⟨r2, s2⟩
          have hb := (ih s1 hwf1).1 b d hab.2
          rw [hr2] at hb
          have hctx1 : s1.ctx = sys.ctx := hsh1.2.1
          have hout : (andThen ((Except.ok v1 : Except EErr Int), s1) fun va sys1 =>
              andThen (run n (.ev b) sys1) fun vb sys2 =>
                ((Except.ok (va * vb) : Except EErr Int), sys2)).2 = s2 := by
            show (andThen (run n (.ev b) s1) fun vb sys2 =>
              ((Except.ok (v1 * vb) : Except EErr Int), sys2)).2 = s2
            rw [hr2]
            cases r2 <;> rfl
          constructor
          · intro hctx hon
            rw [hout]
            rw [hb.1 (by rw [hctx1]; exact hctx) (sOnly_parts_mul hon).2]
            exact ha.1 hctx (sOnly_parts_mul hon).1
          · intro hctx
            rw [hout]
            rw [hb.2 (by rw [hctx1]; exact hctx)]
            exact ha.2 hctx
      | ifz xc t f =>
        have hab : (readsBelow d xc = true ∧ readsBelow d t = true) ∧
            readsBelow d f = true := by
          simpa [readsBelow, Bool.and_eq_true] using hrb
        simp only [run]
        rcases hr1 : run n (.ev xc) sys with ⟨r1, s1⟩
        have hsh1 := run_shape n (.ev xc) sys
        rw [hr1] at hsh1
        have hwf1 : wfComp s1 := wfComp_runOnly hwf hsh1.1
        have ha := (ih sys hwf).1 xc d hab.1.1
        rw [hr1] at ha
        cases r1 with
        | error err =>
          constructor
          · intro hctx hon
            show (Cell.st s ∈ s1.sources d) ↔ _
            exact ha.1 hctx (sOnly_parts_ifz hon).1.1
          · intro hctx
            show s1.sources d = _
            exact ha.2 hctx
        | ok v1 =>
          have hrbB : readsBelow d (if v1 = 0 then t else f) = true := by
            by_cases hv : v1 = 0 <;> simp [hv, hab.1.2, hab.2]
          rcases hr2 : run n (.ev (if v1 = 0 then t else f)) s1 with ⟨r2, s2⟩
          have hb := (ih s1 hwf1).1 (if v1 = 0 then t else f) d hrbB
          rw [hr2] at hb
          have hctx1 : s1.ctx = sys.ctx := hsh1.2.1
          have hout : (andThen ((Except.ok v1 : Except EErr Int), s1) fun vx sys1 =>
              run n (.ev (if vx = 0 then t else f)) sys1).2 = s2 := by
            show (run n (.ev (if v1 = 0 then t else f)) s1).2 = s2
            rw [hr2]
          constructor
          · intro hctx hon
            have honB : sOnly s (if v1 = 0 then t else f) = true := by
              by_cases hv : v1 = 0 <;>
                simp [hv, (sOnly_parts_ifz hon).1.2, (sOnly_parts_ifz hon).2]
            rw [hout]
            rw [hb.1 (by rw [hctx1]; exact hctx) honB]
            exact ha.1 hctx (sOnly_parts_ifz hon).1.1
          · intro hctx
            rw [hout]
            rw [hb.2 (by rw [hctx1]; exact hctx)]
            exact ha.2 hctx
      | untrack inner =>
        simp only [run]
        rcases hri : run n (.ev inner) { sys with ctx := none } with ⟨ri, si⟩
        have hinner := (ih { sys with ctx := none } hwf).1 inner d hrb
        rw [hri] at hinner
        have heq : si.sources d = sys.sources d :=
          hinner.2 (fun h => Option.noConfusion h)
        constructor
        · intro _ _
          show (Cell.st s ∈ si.sources d) ↔ _
          rw [heq]
        · intro _
          show si.sources d = _
          exact heq
    · -- Computed.get
      intro c d hcd
      simp only [run]
      split
      · -- fresh: only the edge registration happens
        constructor
        · intro hctx
          show (Cell.st s ∈ (regEdge c sys).sources d) ↔ _
          unfold regEdge
          rw [hctx]
          show (Cell.st s ∈ updF sys.sources d (addCell (.cp c) (sys.sources d)) d) ↔ _
          rw [updF_same, mem_addCell_iff]
          simp
        · intro hctx
          show (regEdge c sys).sources d = _
          unfold regEdge
          cases hc : sys.ctx with
          | none => rfl
          | some d0 =>
            have hdd : d0 ≠ d := by
              intro he
              exact hctx (by rw [hc, he])
            show updF sys.sources d0 (addCell (.cp c) (sys.sources d0)) d = _
            rw [updF_ne _ _ _ _ (Ne.symm hdd)]
      · rcases hr : run n (.rc c) sys with ⟨r, s1⟩
        have hrc := (ih sys hwf).2.2 c d hcd
        rw [hr] at hrc
        have hsh := run_shape n (.rc c) sys
        rw [hr] at hsh
        cases r with
        | error err =>
          exact ⟨fun _ => by
              show (Cell.st s ∈ s1.sources d) ↔ _
              rw [hrc],
            fun _ => hrc⟩
        | ok v =>
          constructor
          · intro hctx
            show (Cell.st s ∈ (regEdge c s1).sources d) ↔ _
            unfold regEdge
            rw [hsh.2.1, hctx]
            show (Cell.st s ∈ updF s1.sources d (addCell (.cp c) (s1.sources d)) d) ↔ _
            rw [updF_same, mem_addCell_iff, hrc]
            simp
          · intro hctx
            show (regEdge c s1).sources d = _
            unfold regEdge
            rw [hsh.2.1]
            cases hc : sys.ctx with
            | none => exact hrc
            | some d0 =>
              have hdd : d0 ≠ d := by
                intro he
                exact hctx (by rw [hc, he])
              show updF s1.sources d0 (addCell (.cp c) (s1.sources d0)) d = _
              rw [updF_ne _ _ _ _ (Ne.symm hdd), hrc]
    · -- recompute of c, observed at d above c
      intro c d hcd
      have key : ∀ S : Sys, wfComp S → S.ctx = some c → S.sources d = sys.sources d →
          (run n (.ev (S.comp c)) S).2.sources d = sys.sources d := by
        intro S hwfS hctxS hsrcS
        rcases hri : run n (.ev (S.comp c)) S with ⟨ri, si⟩
        have hin := ((ih S hwfS).1 (S.comp c) d
          (readsBelow_mono (Nat.le_of_lt hcd) _ (hwfS c))).2 (by
            rw [hctxS]
            intro he
            rw [Option.some.injEq] at he
            exact Nat.lt_irrefl c (he ▸ hcd))
        rw [hri] at hin
        show si.sources d = _
        rw [hin, hsrcS]
      simp only [run]
      rw [finishRec_sources]
      split <;>
      · exact key _ (by
          intro c'
          show readsBelow c' ((clearSources c sys).comp c') = true
          rw [csOnly_comp (clearSources_csOnly c sys)]
          exact hwf c') rfl (by
          show (clearSources c sys).sources d = sys.sources d
          rw [clearSources_sources]
          exact if_neg (fun he => Nat.lt_irrefl c (by rw [he] at hcd; exact hcd)))

theorem run_comp (fuel : Nat) (call : Call) (sys : Sys) :
    (run fuel call sys).2.comp = sys.comp :=
  runOnly_comp (run_shape fuel call sys).1

/-- A `set` leaves the staleness flag of a computed unchanged when the
computed is not upward-reachable (through dependent edges) from the
state's dependent set. -/
theorem stateSet_fresh_unreachable (s : Nat) (v : Int) (sys : Sys) (c : Nat)
    (h : ¬ UpReach sys (sys.stateDeps s) c) :
    ((c ∈ (stateSet s v sys).freshL) ↔ c ∈ sys.freshL) := by
  simp only [stateSet]
  split
  · exact Iff.rfl
  · rw [notifyList_freshL]
    have hn : ¬ UpReach { sys with stateVal := updF sys.stateVal s v }
        (({ sys with stateVal := updF sys.stateVal s v } : Sys).stateDeps s) c := by
      intro hre
      refine h (upReach_congr ?_ hre)
      rfl
    exact Iff.trans (markMany_unreachable _ _ _ c hn) Iff.rfl

/-- After a recomputation whose computation function reads state `s`
only inside untrack scopes, `s` is not in the computed's source set. -/
theorem rc_sOnly_no_source (s c fuel : Nat) (sys : Sys) (hwf : wfComp sys)
    (hon : sOnly s (sys.comp c) = true) :
    Cell.st s ∉ (run (fuel + 1) (.rc c) sys).2.sources c := by
  have key : ∀ S : Sys, wfComp S → S.ctx = some c → S.sources c = [] →
      sOnly s (S.comp c) = true →
      Cell.st s ∉ (run fuel (.ev (S.comp c)) S).2.sources c := by
    intro S hwfS hctxS hsrcS honS hmem
    have hiff := ((run_sources_discipline s fuel S hwfS).1 (S.comp c) c (hwfS c)).1
      hctxS honS
    rw [hsrcS] at hiff
    exact absurd (hiff.mp hmem) (List.not_mem_nil _)
  simp only [run]
  rw [finishRec_sources]
  split <;>
  · exact key _ (by
      intro c'
      show readsBelow c' ((clearSources c sys).comp c') = true
      rw [csOnly_comp (clearSources_csOnly c sys)]
      exact hwf c') rfl (by
      show (clearSources c sys).sources c = []
      rw [clearSources_sources]
      exact if_pos rfl) (by
      show sOnly s ((clearSources c sys).comp c) = true
      rw [csOnly_comp (clearSources_csOnly c sys)]
      exact hon)

/-- C6 counterexample: in the transitive-staleness scenario, computed 1
reads state 0 only inside untrack (and tracks computed 0).  As the claim
says, state 0 is absent from computed 1's source set — but a later
`set` of state 0 still marks computed 1 stale, through the tracked edge
to computed 0, refuting the claim's final part. -/
theorem c6_counterexample :
    sOnly 0 (transSys.comp 1) = true ∧
    Cell.st 0 ∉ transSys.sources 1 ∧
    1 ∈ transSys.freshL ∧ 1 ∉ transSys2.freshL :=
  ⟨rfl, by decide, by decide, by decide⟩

/-- C6 (corrected): a state read only inside untrack scopes never
enters the recomputed computed's source set, and by edge reciprocity
the computed is absent from the state's dependent set, so a later `set`
of that state never marks the computed stale directly.  The claim's
universal "never marks the Computed stale" fails, because the stale
walk also propagates through dependent edges of tracked intermediaries;
what holds is that the `set` leaves the computed's staleness flag
unchanged whenever the computed is not upward-reachable from the
state's dependents. -/
theorem c6_untrack_suppresses_direct_edges
    (s c fuel : Nat) (v : Int) (sys : Sys) (hwf : wfComp sys) (hre : Recip sys)
    (hon : sOnly s (sys.comp c) = true) :
    (Cell.st s ∉ (run (fuel + 1) (.rc c) sys).2.sources c) ∧
    (c ∉ (run (fuel + 1) (.rc c) sys).2.stateDeps s) ∧
    (¬ UpReach (run (fuel + 1) (.rc c) sys).2
        ((run (fuel + 1) (.rc c) sys).2.stateDeps s) c →
      ((c ∈ (stateSet s v (run (fuel + 1) (.rc c) sys).2).freshL) ↔
        c ∈ (run (fuel + 1) (.rc c) sys).2.freshL)) := by
  have h1 := rc_sOnly_no_source s c fuel sys hwf hon
  have hre2 := recip_run (fuel + 1) (.rc c) sys hre
  refine ⟨h1, ?_, ?_⟩
  · intro hmem
    exact h1 ((hre2.1 s c).mp hmem)
  · intro hnr
    exact stateSet_fresh_unreachable s v _ c hnr

/-- C6 witness: the corrected theorem instantiated on the
transitive-staleness scenario right after computed 0's first read. -/
theorem c6_witness :
    sOnly 0 (transPre.comp 1) = true ∧
    Cell.st 0 ∉ (run 99 (.rc 1) transPre).2.sources 1 ∧
    1 ∉ (run 99 (.rc 1) transPre).2.stateDeps 0 := by
  have hcomp : transPre.comp = transComp := run_comp 99 (.get 0) _
  have hwf : wfComp transPre := by
    intro c
    rw [hcomp]
    rcases c with _ | _ | n <;> rfl
  have hon : sOnly 0 (transPre.comp 1) = true := by rw [hcomp]; rfl
  have h := c6_untrack_suppresses_direct_edges 0 1 98 0 transPre hwf
    (applyOps_recip _ _ (init_recip _ _ _ _)) hon
  exact ⟨hon, h.1, h.2.1⟩

theorem runOnly_pending {a b : Sys} (h : RunOnly a b) : b.pending = a.pending := by rw [h]

theorem runOnly_drainQ {a b : Sys} (h : RunOnly a b) : b.drainQ = a.drainQ := by rw [h]

theorem runOnly_watched {a b : Sys} (h : RunOnly a b) : b.watched = a.watched := by rw [h]

theorem setOnly_runs {a b : Sys} (h : SetOnly a b) : b.runs = a.runs := by rw [h]

theorem setOnly_cpW {a b : Sys} (h : SetOnly a b) : b.cpW = a.cpW := by rw [h]

theorem setOnly_wSched {a b : Sys} (h : SetOnly a b) : b.wSched = a.wSched := by rw [h]

theorem setOnly_watched {a b : Sys} (h : SetOnly a b) : b.watched = a.watched := by rw [h]

theorem setOnly_comp {a b : Sys} (h : SetOnly a b) : b.comp = a.comp := by rw [h]

theorem setOnly_trans {a b c : Sys} (h1 : SetOnly a b) (h2 : SetOnly b c) :
    SetOnly a c := by
  unfold SetOnly at *
  rw [h2, h1]

theorem watchW_runs (w : Nat) (x : Cell) (sys : Sys) :
    (watchW w x sys).runs = sys.runs := by cases x <;> rfl

theorem watchW_freshL (w : Nat) (x : Cell) (sys : Sys) :
    (watchW w x sys).freshL = sys.freshL := by cases x <;> rfl

theorem watchW_pending (w : Nat) (x : Cell) (sys : Sys) :
    (watchW w x sys).pending = sys.pending := by cases x <;> rfl

theorem watchW_drainQ (w : Nat) (x : Cell) (sys : Sys) :
    (watchW w x sys).drainQ = sys.drainQ := by cases x <;> rfl

theorem finishRec_runs (prev : Option Nat) (c : Nat) (p : Except EErr Int × Sys) :
    (finishRec prev c p).2.runs = p.2.runs := by
  rcases p with ⟨r, s⟩
  cases r <;> rfl

/-- `State.set` preserves the one-shot scheduling invariant: exactly one
drain is queued while the pending flag is up. -/
theorem stateSet_drainQ_inv (s : Nat) (v : Int) (sys : Sys)
    (h : sys.drainQ = if sys.pending then 1 else 0) :
    (stateSet s v sys).drainQ = if (stateSet s v sys).pending then 1 else 0 := by
  simp only [stateSet]
  split
  · exact h
  · exact notifyList_drainQ_inv _ _ (markMany_drainQ_inv _ _ _ h)

theorem stateSet_pending_mono (s : Nat) (v : Int) (sys : Sys) (h : sys.pending = true) :
    (stateSet s v sys).pending = true := by
  simp only [stateSet]
  split
  · exact h
  · exact notifyList_pending_mono _ _ (markMany_pending_mono _ _ _ h)

theorem stateSet_fresh_anti (s : Nat) (v : Int) (sys : Sys) (c : Nat)
    (h : c ∈ (stateSet s v sys).freshL) : c ∈ sys.freshL := by
  simp only [stateSet] at h
  split at h
  · exact h
  · rw [notifyList_freshL] at h
    exact markMany_freshMono _ _ { sys with stateVal := updF sys.stateVal s v } c h

/-- When a `set` flips a watched computed from fresh to stale, the
scheduling watcher's callback has run and raised the pending flag. -/
theorem stateSet_flip_pending (s : Nat) (v : Int) (sys : Sys) (c0 w : Nat)
    (hcw : w ∈ sys.cpW c0) (hws : sys.wSched w = true) (hf : c0 ∈ sys.freshL)
    (hnf : c0 ∉ (stateSet s v sys).freshL) :
    (stateSet s v sys).pending = true := by
  simp only [stateSet] at hnf ⊢
  by_cases hv : sys.stateVal s = v
  · rw [if_pos hv] at hnf
    exact absurd hf hnf
  · rw [if_neg hv] at hnf ⊢
    rw [notifyList_freshL] at hnf
    exact notifyList_pending_mono _ _ (markMany_flip_pending _ _ _ c0 w hcw hws hf hnf)

theorem applySets_setOnly (l : List (Nat × Int)) : ∀ sys : Sys,
    SetOnly sys (applySets l sys) := by
  induction l with
  | nil => intro sys; exact rfl
  | cons p l ih =>
    intro sys
    exact setOnly_trans (stateSet_setOnly p.1 p.2 sys) (ih _)

theorem applySets_pending_mono (l : List (Nat × Int)) : ∀ sys : Sys,
    sys.pending = true → (applySets l sys).pending = true := by
  induction l with
  | nil => intro sys h; exact h
  | cons p l ih => intro sys h; exact ih _ (stateSet_pending_mono p.1 p.2 sys h)

theorem applySets_drainQ_inv (l : List (Nat × Int)) : ∀ sys : Sys,
    sys.drainQ = (if sys.pending then 1 else 0) →
    (applySets l sys).drainQ = if (applySets l sys).pending then 1 else 0 := by
  induction l with
  | nil => intro sys h; exact h
  | cons p l ih => intro sys h; exact ih _ (stateSet_drainQ_inv p.1 p.2 sys h)

/-- A whole turn of `set` calls queues at most one drain: if some `set`
in the turn flipped a computed watched by the scheduling watcher, the
pending flag is up at the end of the turn. -/
theorem applySets_flip_pending (l : List (Nat × Int)) : ∀ (sys : Sys) (c0 w : Nat),
    w ∈ sys.cpW c0 → sys.wSched w = true → c0 ∈ sys.freshL →
    c0 ∉ (applySets l sys).freshL → (applySets l sys).pending = true := by
  induction l with
  | nil => intro sys c0 w _ _ hf hnf; exact absurd hf hnf
  | cons p l ih =>
    intro sys c0 w hcw hws hf hnf
    by_cases hf1 : c0 ∈ (stateSet p.1 p.2 sys).freshL
    · refine ih _ c0 w ?_ ?_ hf1 hnf
      · rw [setOnly_cpW (stateSet_setOnly p.1 p.2 sys)]
        exact hcw
      · rw [setOnly_wSched (stateSet_setOnly p.1 p.2 sys)]
        exact hws
    · exact applySets_pending_mono l _
        (stateSet_flip_pending p.1 p.2 sys c0 w hcw hws hf hf1)

theorem finishRec_ok_fresh (prev : Option Nat) (c : Nat) (P : Except EErr Int × Sys)
    (v : Int) (hok : (finishRec prev c P).1 = .ok v) :
    c ∈ (finishRec prev c P).2.freshL := by
  rcases P with ⟨r, s⟩
  cases r with
  | error err => exact Except.noConfusion hok
  | ok v1 =>
    show c ∈ addN c s.freshL
    rw [mem_addN_iff]
    exact Or.inl rfl

/-- A recomputation that returns normally clears the staleness flag. -/
theorem rc_ok_fresh (fuel c : Nat) (sys : Sys) (v : Int)
    (hok : (run fuel (.rc c) sys).1 = .ok v) :
    c ∈ (run fuel (.rc c) sys).2.freshL := by
  cases fuel with
  | zero => exact Except.noConfusion hok
  | succ n => exact finishRec_ok_fresh _ c _ v hok

theorem getAfterRec_ok_inner (c : Nat) (P : Except EErr Int × Sys) (v : Int)
    (h : (getAfterRec c P).1 = .ok v) : ∃ w, P.1 = .ok w := by
  rcases P with ⟨r, s⟩
  cases r with
  | ok v1 => exact ⟨v1, rfl⟩
  | error err => exact Except.noConfusion h

theorem getAfterRec_fresh_mono (c : Nat) (P : Except EErr Int × Sys)
    (h : c ∈ P.2.freshL) : c ∈ (getAfterRec c P).2.freshL := by
  rcases P with ⟨r, s⟩
  cases r with
  | error err => exact h
  | ok v1 =>
    show c ∈ (regEdge c s).freshL
    rw [csOnly_freshL (regEdge_csOnly c s)]
    exact h

theorem getAfterRec_runs (c : Nat) (P : Except EErr Int × Sys) :
    (getAfterRec c P).2.runs = P.2.runs := by
  rcases P with ⟨r, s⟩
  cases r with
  | error err => rfl
  | ok v1 =>
    show (regEdge c s).runs = s.runs
    exact csOnly_runs (regEdge_csOnly c s)

/-- A `get` that returns normally leaves the computed fresh. -/
theorem get_ok_fresh (fuel c : Nat) (sys : Sys) (v : Int)
    (hok : (run fuel (.get c) sys).1 = .ok v) :
    c ∈ (run fuel (.get c) sys).2.freshL := by
  cases fuel with
  | zero => exact Except.noConfusion hok
  | succ n =>
    simp only [run] at hok ⊢
    by_cases hf : c ∈ sys.freshL
    · rw [if_pos hf]
      show c ∈ (regEdge c sys).freshL
      rw [csOnly_freshL (regEdge_csOnly c sys)]
      exact hf
    · rw [if_neg hf] at hok ⊢
      rcases getAfterRec_ok_inner c _ v hok with ⟨v1, hv1⟩
      exact getAfterRec_fresh_mono c _ (rc_ok_fresh n c sys v1 hv1)

/-- A recomputation runs the computation function exactly once: the
counter is bumped on entry and the body, which only reads strictly
below `c`, can never re-enter `c`. -/
theorem rc_ok_runs (fuel c : Nat) (sys : Sys) (hwf : wfComp sys) (v : Int)
    (hok : (run fuel (.rc c) sys).1 = .ok v) :
    (run fuel (.rc c) sys).2.runs c = sys.runs c + 1 := by
  cases fuel with
  | zero => exact Except.noConfusion hok
  | succ n =>
    have key : ∀ S : Sys, wfComp S → S.runs c = sys.runs c + 1 →
        (run n (.ev (S.comp c)) S).2.runs c = sys.runs c + 1 := by
      intro S hwfS hr
      have hvf := run_valueFrame n (.ev (S.comp c)) S c hwfS (hwfS c) c (Nat.le_refl c)
      rw [hvf.2.2, hr]
    simp only [run]
    rw [finishRec_runs]
    split <;>
    · exact key _ (by
        intro c'
        show readsBelow c' ((clearSources c sys).comp c') = true
        rw [csOnly_comp (clearSources_csOnly c sys)]
        exact hwf c') (by
        show updF (clearSources c sys).runs c ((clearSources c sys).runs c + 1) c =
          sys.runs c + 1
        rw [updF_same, csOnly_runs (clearSources_csOnly c sys)])

/-- A `get` of a stale computed that returns normally has recomputed it
exactly once. -/
theorem get_stale_runs (fuel c : Nat) (sys : Sys) (hwf : wfComp sys)
    (hst : c ∉ sys.freshL) (v : Int) (hok : (run fuel (.get c) sys).1 = .ok v) :
    (run fuel (.get c) sys).2.runs c = sys.runs c + 1 := by
  cases fuel with
  | zero => exact Except.noConfusion hok
  | succ n =>
    simp only [run] at hok ⊢
    rw [if_neg hst] at hok ⊢
    rw [getAfterRec_runs]
    rcases getAfterRec_ok_inner c _ v hok with ⟨v1, hv1⟩
    exact rc_ok_runs n c sys hwf v1 hv1

theorem drainStep_cp_ok (fuel : Nat) (s : Sys) (cid : Nat) :
    drainStep fuel ((Except.ok () : Except EErr Unit), s) (.cp cid) =
      match run fuel (.get cid) s with
      | (.ok _, s1) => ((.ok () : Except EErr Unit), s1)
      | (.error err, s1) => (.error err, s1) := rfl

/-- The drain microtask on a watcher whose watch list is exactly the
stale effect computed: pop the queue, drop the flag, recompute once,
leave fresh. -/
theorem drain_single_cell (fuel : Nat) (out : Sys) (c0 : Nat)
    (hwfo : wfComp out) (hst : c0 ∉ out.freshL)
    (hwo : out.watched 0 = [Cell.cp c0]) (hq : out.drainQ = 1)
    (hok : (runDrain fuel out).1 = .ok ()) :
    (runDrain fuel out).2.runs c0 = out.runs c0 + 1 ∧
    c0 ∈ (runDrain fuel out).2.freshL ∧
    (runDrain fuel out).2.pending = false ∧
    (runDrain fuel out).2.drainQ = 0 := by
  unfold runDrain drainLoop at hok ⊢
  have hlist : (getPendingW 0
      ({ out with pending := false, drainQ := out.drainQ - 1 } : Sys)).1 =
      [Cell.cp c0] := hwo
  rw [hlist] at hok ⊢
  rw [List.foldl_cons, List.foldl_nil] at hok ⊢
  rw [drainStep_cp_ok] at hok ⊢
  rcases hg : run fuel (.get c0)
      { out with pending := false, drainQ := out.drainQ - 1 } with ⟨rg, s1⟩
  rw [hg] at hok
  cases rg with
  | error err => exact Except.noConfusion hok
  | ok vg =>
    have hok1 : (run fuel (.get c0)
        ({ out with pending := false, drainQ := out.drainQ - 1 } : Sys)).1 = .ok vg := by
      rw [hg]
    have hsh := run_shape fuel (.get c0)
      { out with pending := false, drainQ := out.drainQ - 1 }
    rw [hg] at hsh
    have hs1w : s1.watched 0 = [Cell.cp c0] := by
      rw [runOnly_watched hsh.1]
      exact hwo
    refine ⟨?_, ?_, ?_, ?_⟩
    · show ((getPendingW 0 s1).1.foldl rewatchStep s1).runs c0 = out.runs c0 + 1
      show ((s1.watched 0).foldl rewatchStep s1).runs c0 = out.runs c0 + 1
      rw [hs1w, List.foldl_cons, List.foldl_nil]
      show (watchW 0 (.cp c0) s1).runs c0 = out.runs c0 + 1
      rw [watchW_runs]
      have hr1 := get_stale_runs fuel c0
        { out with pending := false, drainQ := out.drainQ - 1 } hwfo hst vg hok1
      rw [hg] at hr1
      exact hr1
    · show c0 ∈ ((s1.watched 0).foldl rewatchStep s1).freshL
      rw [hs1w, List.foldl_cons, List.foldl_nil]
      show c0 ∈ (watchW 0 (.cp c0) s1).freshL
      rw [watchW_freshL]
      have hfr := get_ok_fresh fuel c0
        { out with pending := false, drainQ := out.drainQ - 1 } vg hok1
      rw [hg] at hfr
      exact hfr
    · show ((s1.watched 0).foldl rewatchStep s1).pending = false
      rw [hs1w, List.foldl_cons, List.foldl_nil]
      show (watchW 0 (.cp c0) s1).pending = false
      rw [watchW_pending, runOnly_pending hsh.1]
    · show ((s1.watched 0).foldl rewatchStep s1).drainQ = 0
      rw [hs1w, List.foldl_cons, List.foldl_nil]
      show (watchW 0 (.cp c0) s1).drainQ = 0
      rw [watchW_drainQ, runOnly_drainQ hsh.1]
      show out.drainQ - 1 = 0
      rw [hq]

/-- C5: any number of `set` calls inside one synchronous turn that
leave the watched effect computed stale queue exactly one drain
(pending flag up, one queued microtask, never more), do not run the
effect body during the turn, and the single deferred drain then re-runs
the body exactly once, leaving the computed fresh with the flag and
queue cleared. -/
theorem c5_effect_batched_single_rerun
    (c0 : Nat) (l : List (Nat × Int)) (fuel : Nat) (sys : Sys)
    (hwf : wfComp sys) (hsb : SetupBatch sys c0)
    (hw : sys.watched 0 = [Cell.cp c0])
    (hstale : c0 ∉ (applySets l sys).freshL) :
    (applySets l sys).pending = true ∧
    (applySets l sys).drainQ = 1 ∧
    (applySets l sys).runs c0 = sys.runs c0 ∧
    ((runDrain fuel (applySets l sys)).1 = .ok () →
      (runDrain fuel (applySets l sys)).2.runs c0 = sys.runs c0 + 1 ∧
      c0 ∈ (runDrain fuel (applySets l sys)).2.freshL ∧
      (runDrain fuel (applySets l sys)).2.pending = false ∧
      (runDrain fuel (applySets l sys)).2.drainQ = 0) := by
  have hso := applySets_setOnly l sys
  have hpend : (applySets l sys).pending = true :=
    applySets_flip_pending l sys c0 0 hsb.2.2.2.2.1 hsb.2.2.1 hsb.2.2.2.2.2 hstale
  have hq : (applySets l sys).drainQ = 1 := by
    have h := applySets_drainQ_inv l sys (by rw [hsb.2.1, hsb.1]; decide)
    rw [hpend] at h
    exact h
  have hruns : (applySets l sys).runs c0 = sys.runs c0 := by
    rw [setOnly_runs hso]
  refine ⟨hpend, hq, hruns, ?_⟩
  intro hok
  have hwfo : wfComp (applySets l sys) := by
    intro c
    rw [setOnly_comp hso]
    exact hwf c
  have hwatched : (applySets l sys).watched 0 = [Cell.cp c0] := by
    rw [setOnly_watched hso, hw]
  have hd := drain_single_cell fuel (applySets l sys) c0 hwfo hstale hwatched hq hok
  refine ⟨?_, hd.2.1, hd.2.2.1, hd.2.2.2⟩
  rw [hd.1, hruns]

/-- C5 witness: two `set` calls in one turn on the effect scenario. -/
theorem c5_witness :
    eff1.pending = true ∧ eff1.drainQ = 1 ∧ eff1.runs 0 = eff0.runs 0 ∧
    (runDrain 99 eff1).2.runs 0 = eff0.runs 0 + 1 ∧
    0 ∈ (runDrain 99 eff1).2.freshL ∧
    (runDrain 99 eff1).2.pending = false ∧
    (runDrain 99 eff1).2.drainQ = 0 := by
  have hcomp : eff0.comp = effComp := run_comp 99 (.get 0) _
  have hwf : wfComp eff0 := by
    intro c
    rw [hcomp]
    rcases c with _ | n <;> rfl
  have h := c5_effect_batched_single_rerun 0 [(0, 5), (1, 7)] 99 eff0 hwf
    ⟨by decide, by decide, by decide, by decide, by decide, by decide⟩
    (by decide) (by decide)
  have hd := h.2.2.2 rfl
  exact ⟨h.1, h.2.1, h.2.2.1, hd.1, hd.2.1, hd.2.2.1, hd.2.2.2⟩

theorem mem_foldl_addCell (rds : List Cell) : ∀ (acc : List Cell) (x : Cell),
    x ∈ rds.foldl (fun a y => addCell y a) acc ↔ x ∈ rds ∨ x ∈ acc := by
  induction rds with
  | nil => intro acc x; simp
  | cons r rs ih =>
    intro acc x
    rw [List.foldl_cons, ih, mem_addCell_iff, List.mem_cons]
    tauto

theorem mem_collect (x : Cell) (rds : List Cell) : x ∈ collect rds ↔ x ∈ rds := by
  unfold collect
  rw [mem_foldl_addCell]
  simp

/-- Fuel monotonicity of the from-scratch evaluator. -/
theorem pr_mono (fuel : Nat) : ∀ (e : Expr) (sys : Sys) (r : Int × List Cell),
    pr fuel e sys = .ok r → pr (fuel + 1) e sys = .ok r := by
  induction fuel with
  | zero => intro e sys r h; exact Except.noConfusion h
  | succ n ih =>
    intro e sys r h
    cases e with
    | lit v => exact h
    | throwE => exact Except.noConfusion h
    | readS s => exact h
    | readC c =>
      simp only [pr] at h
      show (match pr (n + 1) (sys.comp c) sys with
        | .ok (v, _) =>
          (.ok ((if sys.isBody c then 0 else v), [Cell.cp c]) : Except EErr (Int × List Cell))
        | .error err => .error err) = .ok r
      rcases hi : pr n (sys.comp c) sys with err | vp
      · rw [hi] at h
        exact Except.noConfusion h
      · rw [hi] at h
        rw [ih _ _ _ hi]
        exact h
    | add a b =>
      simp only [pr] at h
      show (match pr (n + 1) a sys with
        | .ok (va, ra) =>
          match pr (n + 1) b sys with
          | .ok (vb, rb) => (.ok (va + vb, ra ++ rb) : Except EErr (Int × List Cell))
          | .error err => .error err
        | .error err => .error err) = .ok r
      rcases ha : pr n a sys with err | vpa
      · rw [ha] at h
        exact Except.noConfusion h
      · rcases vpa with ⟨va, ra⟩
        rw [ha] at h
        rw [ih _ _ _ ha]
        replace h : (match pr n b sys with
          | .ok (vb, rb) => (.ok (va + vb, ra ++ rb) : Except EErr (Int × List Cell))
          | .error err => .error err) = .ok r := h
        show (match pr (n + 1) b sys with
          | .ok (vb, rb) => (.ok (va + vb, ra ++ rb) : Except EErr (Int × List Cell))
          | .error err => .error err) = .ok r
        rcases hb : pr n b sys with err | vpb
        · rw [hb] at h
          exact Except.noConfusion h
        · rw [hb] at h
          rw [ih _ _ _ hb]
          exact h
    | mul a b =>
      simp only [pr] at h
      show (match pr (n + 1) a sys with
        | .ok (va, ra) =>
          match pr (n + 1) b sys with
          | .ok (vb, rb) => (.ok (va * vb, ra ++ rb) : Except EErr (Int × List Cell))
          | .error err => .error err
        | .error err => .error err) = .ok r
      rcases ha : pr n a sys with err | vpa
      · rw [ha] at h
        exact Except.noConfusion h
      · rcases vpa with ⟨va, ra⟩
        rw [ha] at h
        rw [ih _ _ _ ha]
        replace h : (match pr n b sys with
          | .ok (vb, rb) => (.ok (va * vb, ra ++ rb) : Except EErr (Int × List Cell))
          | .error err => .error err) = .ok r := h
        show (match pr (n + 1) b sys with
          | .ok (vb, rb) => (.ok (va * vb, ra ++ rb) : Except EErr (Int × List Cell))
          | .error err => .error err) = .ok r
        rcases hb : pr n b sys with err | vpb
        · rw [hb] at h
          exact Except.noConfusion h
        · rw [hb] at h
          rw [ih _ _ _ hb]
          exact h
    | ifz x t f =>
      simp only [pr] at h
      show (match pr (n + 1) x sys with
        | .ok (vx, rx) =>
          match pr (n + 1) (if vx = 0 then t else f) sys with
          | .ok (vb, rb) => (.ok (vb, rx ++ rb) : Except EErr (Int × List Cell))
          | .error err => .error err
        | .error err => .error err) = .ok r
      rcases hx : pr n x sys with err | vpx
      · rw [hx] at h
        exact Except.noConfusion h
      · rcases vpx with ⟨vx, rx⟩
        rw [hx] at h
        rw [ih _ _ _ hx]
        replace h : (match pr n (if vx = 0 then t else f) sys with
          | .ok (vb, rb) => (.ok (vb, rx ++ rb) : Except EErr (Int × List Cell))
          | .error err => .error err) = .ok r := h
        show (match pr (n + 1) (if vx = 0 then t else f) sys with
          | .ok (vb, rb) => (.ok (vb, rx ++ rb) : Except EErr (Int × List Cell))
          | .error err => .error err) = .ok r
        rcases hb : pr n (if vx = 0 then t else f) sys with err | vpb
        · rw [hb] at h
          exact Except.noConfusion h
        · rw [hb] at h
          rw [ih _ _ _ hb]
          exact h
    | untrack inner =>
      simp only [pr] at h
      show (match pr (n + 1) inner sys with
        | .ok (v, _) => (.ok (v, ([] : List Cell)) : Except EErr (Int × List Cell))
        | .error err => .error err) = .ok r
      rcases hi : pr n inner sys with err | vp
      · rw [hi] at h
        exact Except.noConfusion h
      · rw [hi] at h
        rw [ih _ _ _ hi]
        exact h

theorem pr_mono_le {f f' : Nat} (hle : f ≤ f') : ∀ (e : Expr) (sys : Sys)
    (r : Int × List Cell), pr f e sys = .ok r → pr f' e sys = .ok r := by
  induction hle with
  | refl => exact fun e sys r h => h
  | step h2 ih => exact fun e sys r h => pr_mono _ e sys r (ih e sys r h)

/-- The from-scratch evaluator is deterministic across fuels. -/
theorem pr_agree {f f' : Nat} {e : Expr} {sys : Sys} {r r' : Int × List Cell}
    (h : pr f e sys = .ok r) (h' : pr f' e sys = .ok r') : r = r' := by
  have h1 := pr_mono_le (Nat.le_max_left f f') e sys r h
  have h2 := pr_mono_le (Nat.le_max_right f f') e sys r' h'
  rw [h1] at h2
  exact Except.ok.inj h2

/-- The from-scratch evaluator reads only the state values, the
computation table and the body table. -/
theorem pr_ext (sA sB : Sys) (hv : sA.stateVal = sB.stateVal)
    (hc : sA.comp = sB.comp) (hb : sA.isBody = sB.isBody) :
    ∀ (fuel : Nat) (e : Expr), pr fuel e sA = pr fuel e sB := by
  intro fuel
  induction fuel with
  | zero => intro e; rfl
  | succ n ih =>
    intro e
    cases e with
    | lit v => rfl
    | throwE => rfl
    | readS s =>
      simp only [pr]
      rw [hv]
    | readC c =>
      simp only [pr]
      rw [hc, hb, ih (sB.comp c)]
    | add a b =>
      simp only [pr]
      rw [ih a]
      cases hA : pr n a sB with
      | error err => rfl
      | ok vpa =>
        rcases vpa with ⟨va, ra⟩
        show (match pr n b sA with
          | .ok (vb, rb) => (.ok (va + vb, ra ++ rb) : Except EErr (Int × List Cell))
          | .error err => .error err) = (match pr n b sB with
          | .ok (vb, rb) => (.ok (va + vb, ra ++ rb) : Except EErr (Int × List Cell))
          | .error err => .error err)
        rw [ih b]
    | mul a b =>
      simp only [pr]
      rw [ih a]
      cases hA : pr n a sB with
      | error err => rfl
      | ok vpa =>
        rcases vpa with ⟨va, ra⟩
        show (match pr n b sA with
          | .ok (vb, rb) => (.ok (va * vb, ra ++ rb) : Except EErr (Int × List Cell))
          | .error err => .error err) = (match pr n b sB with
          | .ok (vb, rb) => (.ok (va * vb, ra ++ rb) : Except EErr (Int × List Cell))
          | .error err => .error err)
        rw [ih b]
    | ifz x t f =>
      simp only [pr]
      rw [ih x]
      cases hX : pr n x sB with
      | error err => rfl
      | ok vpx =>
        rcases vpx with ⟨vx, rx⟩
        show (match pr n (if vx = 0 then t else f) sA with
          | .ok (vb, rb) => (.ok (vb, rx ++ rb) : Except EErr (Int × List Cell))
          | .error err => .error err) = (match pr n (if vx = 0 then t else f) sB with
          | .ok (vb, rb) => (.ok (vb, rx ++ rb) : Except EErr (Int × List Cell))
          | .error err => .error err)
        rw [ih (if vx = 0 then t else f)]
    | untrack inner =>
      simp only [pr]
      rw [ih inner]

theorem sum_sublist_le (g : Nat → Nat) (l1 l2 : List Nat) (h : l1.Sublist l2) :
    (l1.map g).sum ≤ (l2.map g).sum := by
  induction h with
  | slnil => exact Nat.le_refl 0
  | cons a h2 ih =>
    rw [List.map_cons, List.sum_cons]
    omega
  | cons₂ a h2 ih =>
    rw [List.map_cons, List.sum_cons, List.map_cons, List.sum_cons]
    omega

theorem sum_delN_le (l : List Nat) (c : Nat) (g : Nat → Nat) (hc : c ∈ l) :
    ((delN c l).map g).sum + g c ≤ (l.map g).sum := by
  induction l with
  | nil => exact absurd hc (List.not_mem_nil c)
  | cons a l ih =>
    by_cases hac : a = c
    · have h1 : delN c (a :: l) = delN c l := by
        unfold delN
        rw [List.filter_cons]
        simp [hac]
      rw [h1, List.map_cons, List.sum_cons]
      subst hac
      have h2 : ((delN a l).map g).sum ≤ (l.map g).sum :=
        sum_sublist_le g _ _ (List.filter_sublist l)
      omega
    · have h1 : delN c (a :: l) = a :: delN c l := by
        unfold delN
        rw [List.filter_cons]
        simp [hac]
      have hcl : c ∈ l := by
        cases hc with
        | head => exact absurd rfl hac
        | tail _ h => exact h
      have h2 := ih hcl
      rw [h1, List.map_cons, List.sum_cons, List.map_cons, List.sum_cons]
      omega

theorem markMany_freshL_sublist (fuel : Nat) : ∀ (cs : List Nat) (sys : Sys),
    ((markMany fuel cs sys).freshL).Sublist sys.freshL := by
  induction fuel with
  | zero => intro cs sys; cases cs <;> exact List.Sublist.refl _
  | succ n ih =>
    intro cs sys
    cases cs with
    | nil => exact List.Sublist.refl _
    | cons c0 cs =>
      simp only [markMany]
      split
      · refine List.Sublist.trans (ih cs _) ?_
        rw [notifyList_freshL]
        refine List.Sublist.trans (ih _ _) ?_
        show (delN c0 sys.freshL).Sublist sys.freshL
        exact List.filter_sublist _
      · exact ih cs sys

theorem markMany_markCost_le (fuel : Nat) (cs : List Nat) (sys : Sys) :
    markCost (markMany fuel cs sys) ≤ markCost sys := by
  have hsub := markMany_freshL_sublist fuel cs sys
  have hcd : (markMany fuel cs sys).compDeps = sys.compDeps :=
    markOnly_compDeps (markMany_markOnly fuel cs sys)
  unfold markCost
  rw [hcd]
  exact sum_sublist_le _ _ _ hsub

/-- Completeness of the stale-marking walk under the budget `State.set`
supplies: every cell of the worklist ends up stale, and whenever the
walk flips a computed from fresh to stale it also visits (and hence
stales) all of that computed's dependents. -/
theorem markMany_complete (fuel : Nat) : ∀ (cs : List Nat) (sys : Sys),
    cs.length + markCost sys ≤ fuel →
    (∀ c, c ∈ cs → c ∉ (markMany fuel cs sys).freshL) ∧
    (∀ c', c' ∈ sys.freshL → c' ∉ (markMany fuel cs sys).freshL →
      ∀ c, c ∈ sys.compDeps c' → c ∉ (markMany fuel cs sys).freshL) := by
  induction fuel with
  | zero =>
    intro cs sys hb
    cases cs with
    | nil =>
      exact ⟨fun c hc => absurd hc (List.not_mem_nil c), fun c' h1 h2 => absurd h1 h2⟩
    | cons a l =>
      exact absurd hb (by simp)
  | succ n ih =>
    intro cs sys hb
    cases cs with
    | nil =>
      exact ⟨fun c hc => absurd hc (List.not_mem_nil c), fun c' h1 h2 => absurd h1 h2⟩
    | cons c0 cs =>
      have hb2 : cs.length + markCost sys ≤ n := by
        simp only [List.length_cons] at hb
        omega
      by_cases hcf : c0 ∈ sys.freshL
      · simp only [markMany]
        rw [if_pos hcf]
        set sys1 : Sys := { sys with freshL := delN c0 sys.freshL } with hs1
        set sys2 : Sys := markMany n (sys1.compDeps c0) sys1 with hs2
        set sys3 : Sys := notifyList (sys2.cpW c0) sys2 with hs3
        have hmc1 : markCost sys1 + (1 + (sys.compDeps c0).length) ≤ markCost sys := by
          rw [hs1]
          exact sum_delN_le sys.freshL c0 (fun c => 1 + (sys.compDeps c).length) hcf
        have hdepslen : (sys1.compDeps c0).length = (sys.compDeps c0).length := by
          rw [hs1]
        have hInner : (sys1.compDeps c0).length + markCost sys1 ≤ n := by omega
        have ihInner := ih (sys1.compDeps c0) sys1 hInner
        rw [← hs2] at ihInner
        have h32 : markCost sys3 = markCost sys2 := by
          rw [hs3]
          unfold markCost
          rw [notifyList_freshL, markOnly_compDeps (notifyList_markOnly _ _)]
        have h21 : markCost sys2 ≤ markCost sys1 := by
          rw [hs2]
          exact markMany_markCost_le n _ sys1
        have hOuter : cs.length + markCost sys3 ≤ n := by omega
        have ihOuter := ih cs sys3 hOuter
        have hfr32 : sys3.freshL = sys2.freshL := by
          rw [hs3, notifyList_freshL]
        have hmonoR : ∀ x, x ∉ sys3.freshL → x ∉ (markMany n cs sys3).freshL :=
          fun x hx hR => hx (markMany_freshMono n cs sys3 x hR)
        have hmono2R : ∀ x, x ∉ sys2.freshL → x ∉ (markMany n cs sys3).freshL := by
          intro x hx
          refine hmonoR x ?_
          rw [hfr32]
          exact hx
        have hcd3 : sys3.compDeps = sys.compDeps := by
          rw [hs3, markOnly_compDeps (notifyList_markOnly _ _), hs2,
            markOnly_compDeps (markMany_markOnly _ _ _), hs1]
        have hcd1 : sys1.compDeps = sys.compDeps := by rw [hs1]
        constructor
        · intro c hc
          cases hc with
          | head =>
            refine hmono2R c0 ?_
            intro h2
            have h1 := markMany_freshMono n (sys1.compDeps c0) sys1 c0 (by rw [hs2] at h2; exact h2)
            have h1d : c0 ∈ delN c0 sys.freshL := by rw [hs1] at h1; exact h1
            rw [mem_delN_iff] at h1d
            exact h1d.2 rfl
          | tail _ hcs => exact ihOuter.1 c hcs
        · intro c' hf' hnR c hdep
          by_cases hc0 : c' = c0
          · subst hc0
            refine hmono2R c ?_
            exact ihInner.1 c (by rw [hcd1]; exact hdep)
          · have h1f : c' ∈ sys1.freshL := by
              rw [hs1]
              show c' ∈ delN c0 sys.freshL
              rw [mem_delN_iff]
              exact ⟨hf', hc0⟩
            by_cases h2f : c' ∈ sys2.freshL
            · have h3f : c' ∈ sys3.freshL := by rw [hfr32]; exact h2f
              exact ihOuter.2 c' h3f hnR c (by rw [hcd3]; exact hdep)
            · refine hmono2R c ?_
              exact ihInner.2 c' h1f (by rw [hs2] at h2f ⊢; exact h2f) c
                (by rw [hcd1]; exact hdep)
      · simp only [markMany]
        rw [if_neg hcf]
        have ihO := ih cs sys hb2
        refine ⟨?_, ihO.2⟩
        intro c hc
        cases hc with
        | head =>
          intro hR
          exact hcf (markMany_freshMono n cs sys c0 hR)
        | tail _ hcs => exact ihO.1 c hcs

theorem setOnly_value {a b : Sys} (h : SetOnly a b) : b.value = a.value := by rw [h]

theorem setOnly_isBody {a b : Sys} (h : SetOnly a b) : b.isBody = a.isBody := by rw [h]

theorem setOnly_sources {a b : Sys} (h : SetOnly a b) : b.sources = a.sources := by rw [h]

theorem setOnly_ctx {a b : Sys} (h : SetOnly a b) : b.ctx = a.ctx := by rw [h]

theorem markOnly_stateVal {a b : Sys} (h : MarkOnly a b) : b.stateVal = a.stateVal := by
  rw [h]

/-- Congruence for the from-scratch evaluator between two systems that
agree on the computation tables, on the values of every state the
evaluation reads, and on the evaluation of every computed it reads. -/
theorem pr_congr (sN sO : Sys) ( _hcomp : sN.comp = sO.comp)
    (hbody : sN.isBody = sO.isBody) (GS GC : Nat → Prop)
    (hGS : ∀ s', GS s' → sN.stateVal s' = sO.stateVal s')
    (hGC : ∀ c', GC c' → ∀ f v rds, pr f (sO.comp c') sO = .ok (v, rds) →
        pr f (sN.comp c') sN = .ok (v, rds)) :
    ∀ (fuel : Nat) (e : Expr), noUn e = true → ∀ (v : Int) (rds : List Cell),
    pr fuel e sO = .ok (v, rds) →
    (∀ s', Cell.st s' ∈ rds → GS s') → (∀ c', Cell.cp c' ∈ rds → GC c') →
    pr fuel e sN = .ok (v, rds) := by
  intro fuel
  induction fuel with
  | zero => intro e _ v rds h _ _; exact Except.noConfusion h
  | succ n ih =>
    intro e hnu v rds h hS hC
    cases e with
    | lit w => exact h
    | throwE => exact Except.noConfusion h
    | readS s' =>
      replace h : (Except.ok (sO.stateVal s', [Cell.st s']) :
        Except EErr (Int × List Cell)) = .ok (v, rds) := h
      have hp := Except.ok.inj h
      have hv2 : sO.stateVal s' = v := congrArg Prod.fst hp
      have hr2 : [Cell.st s'] = rds := congrArg Prod.snd hp
      have hmem : Cell.st s' ∈ rds := by
        rw [← hr2]
        exact List.mem_singleton.mpr rfl
      show (Except.ok (sN.stateVal s', [Cell.st s']) :
        Except EErr (Int × List Cell)) = .ok (v, rds)
      rw [hGS s' (hS s' hmem), hv2, hr2]
    | readC c' =>
      replace h : (match pr n (sO.comp c') sO with
        | .ok (v0, _) => (.ok ((if sO.isBody c' then 0 else v0), [Cell.cp c']) :
            Except EErr (Int × List Cell))
        | .error err => .error err) = .ok (v, rds) := h
      rcases hi : pr n (sO.comp c') sO with err | vp
      · rw [hi] at h
        exact Except.noConfusion h
      · rcases vp with ⟨v0, rds0⟩
        rw [hi] at h
        replace h : (Except.ok ((if sO.isBody c' then 0 else v0), [Cell.cp c']) :
          Except EErr (Int × List Cell)) = .ok (v, rds) := h
        have hp := Except.ok.inj h
        have hr2 : [Cell.cp c'] = rds := congrArg Prod.snd hp
        have hmem : Cell.cp c' ∈ rds := by
          rw [← hr2]
          exact List.mem_singleton.mpr rfl
        have hinner := hGC c' (hC c' hmem) n v0 rds0 hi
        show (match pr n (sN.comp c') sN with
          | .ok (v0, _) => (.ok ((if sN.isBody c' then 0 else v0), [Cell.cp c']) :
              Except EErr (Int × List Cell))
          | .error err => .error err) = .ok (v, rds)
        rw [hinner, hbody]
        exact h
    | add a b =>
      have hnu2 : noUn a = true ∧ noUn b = true := by
        simpa [noUn, Bool.and_eq_true] using hnu
      replace h : (match pr n a sO with
        | .ok (va, ra) =>
          match pr n b sO with
          | .ok (vb, rb) => (.ok (va + vb, ra ++ rb) : Except EErr (Int × List Cell))
          | .error err => .error err
        | .error err => .error err) = .ok (v, rds) := h
      rcases ha : pr n a sO with err | vpa
      · rw [ha] at h
        exact Except.noConfusion h
      · rcases vpa with ⟨va, ra⟩
        rw [ha] at h
        replace h : (match pr n b sO with
          | .ok (vb, rb) => (.ok (va + vb, ra ++ rb) : Except EErr (Int × List Cell))
          | .error err => .error err) = .ok (v, rds) := h
        rcases hbb : pr n b sO with err | vpb
        · rw [hbb] at h
          exact Except.noConfusion h
        · rcases vpb with ⟨vb, rb⟩
          rw [hbb] at h
          replace h : (Except.ok (va + vb, ra ++ rb) :
            Except EErr (Int × List Cell)) = .ok (v, rds) := h
          have hr2 : ra ++ rb = rds := congrArg Prod.snd (Except.ok.inj h)
          have hA := ih a hnu2.1 va ra ha
            (fun s' hm => hS s' (by rw [← hr2]; exact List.mem_append_left _ hm))
            (fun c' hm => hC c' (by rw [← hr2]; exact List.mem_append_left _ hm))
          have hB := ih b hnu2.2 vb rb hbb
            (fun s' hm => hS s' (by rw [← hr2]; exact List.mem_append_right _ hm))
            (fun c' hm => hC c' (by rw [← hr2]; exact List.mem_append_right _ hm))
          show (match pr n a sN with
            | .ok (va, ra) =>
              match pr n b sN with
              | .ok (vb, rb) => (.ok (va + vb, ra ++ rb) : Except EErr (Int × List Cell))
              | .error err => .error err
            | .error err => .error err) = .ok (v, rds)
          rw [hA]
          show (match pr n b sN with
            | .ok (vb, rb) => (.ok (va + vb, ra ++ rb) : Except EErr (Int × List Cell))
            | .error err => .error err) = .ok (v, rds)
          rw [hB]
          exact h
    | mul a b =>
      have hnu2 : noUn a = true ∧ noUn b = true := by
        simpa [noUn, Bool.and_eq_true] using hnu
      replace h : (match pr n a sO with
        | .ok (va, ra) =>
          match pr n b sO with
          | .ok (vb, rb) => (.ok (va * vb, ra ++ rb) : Except EErr (Int × List Cell))
          | .error err => .error err
        | .error err => .error err) = .ok (v, rds) := h
      rcases ha : pr n a sO with err | vpa
      · rw [ha] at h
        exact Except.noConfusion h
      · rcases vpa with ⟨va, ra⟩
        rw [ha] at h
        replace h : (match pr n b sO with
          | .ok (vb, rb) => (.ok (va * vb, ra ++ rb) : Except EErr (Int × List Cell))
          | .error err => .error err) = .ok (v, rds) := h
        rcases hbb : pr n b sO with err | vpb
        · rw [hbb] at h
          exact Except.noConfusion h
        · rcases vpb with ⟨vb, rb⟩
          rw [hbb] at h
          replace h : (Except.ok (va * vb, ra ++ rb) :
            Except EErr (Int × List Cell)) = .ok (v, rds) := h
          have hr2 : ra ++ rb = rds := congrArg Prod.snd (Except.ok.inj h)
          have hA := ih a hnu2.1 va ra ha
            (fun s' hm => hS s' (by rw [← hr2]; exact List.mem_append_left _ hm))
            (fun c' hm => hC c' (by rw [← hr2]; exact List.mem_append_left _ hm))
          have hB := ih b hnu2.2 vb rb hbb
            (fun s' hm => hS s' (by rw [← hr2]; exact List.mem_append_right _ hm))
            (fun c' hm => hC c' (by rw [← hr2]; exact List.mem_append_right _ hm))
          show (match pr n a sN with
            | .ok (va, ra) =>
              match pr n b sN with
              | .ok (vb, rb) => (.ok (va * vb, ra ++ rb) : Except EErr (Int × List Cell))
              | .error err => .error err
            | .error err => .error err) = .ok (v, rds)
          rw [hA]
          show (match pr n b sN with
            | .ok (vb, rb) => (.ok (va * vb, ra ++ rb) : Except EErr (Int × List Cell))
            | .error err => .error err) = .ok (v, rds)
          rw [hB]
          exact h
    | ifz x t f =>
      have hnu3 : (noUn x = true ∧ noUn t = true) ∧ noUn f = true := by
        simpa [noUn, Bool.and_eq_true] using hnu
      replace h : (match pr n x sO with
        | .ok (vx, rx) =>
          match pr n (if vx = 0 then t else f) sO with
          | .ok (vb, rb) => (.ok (vb, rx ++ rb) : Except EErr (Int × List Cell))
          | .error err => .error err
        | .error err => .error err) = .ok (v, rds) := h
      rcases hx : pr n x sO with err | vpx
      · rw [hx] at h
        exact Except.noConfusion h
      · rcases vpx with ⟨vx, rx⟩
        rw [hx] at h
        replace h : (match pr n (if vx = 0 then t else f) sO with
          | .ok (vb, rb) => (.ok (vb, rx ++ rb) : Except EErr (Int × List Cell))
          | .error err => .error err) = .ok (v, rds) := h
        rcases hbr : pr n (if vx = 0 then t else f) sO with err | vpb
        · rw [hbr] at h
          exact Except.noConfusion h
        · rcases vpb with ⟨vb, rb⟩
          rw [hbr] at h
          replace h : (Except.ok (vb, rx ++ rb) :
            Except EErr (Int × List Cell)) = .ok (v, rds) := h
          have hr2 : rx ++ rb = rds := congrArg Prod.snd (Except.ok.inj h)
          have hnuBr : noUn (if vx = 0 then t else f) = true := by
            by_cases hv0 : vx = 0 <;> simp [hv0, hnu3.1.2, hnu3.2]
          have hX := ih x hnu3.1.1 vx rx hx
            (fun s' hm => hS s' (by rw [← hr2]; exact List.mem_append_left _ hm))
            (fun c' hm => hC c' (by rw [← hr2]; exact List.mem_append_left _ hm))
          have hBr := ih (if vx = 0 then t else f) hnuBr vb rb hbr
            (fun s' hm => hS s' (by rw [← hr2]; exact List.mem_append_right _ hm))
            (fun c' hm => hC c' (by rw [← hr2]; exact List.mem_append_right _ hm))
          show (match pr n x sN with
            | .ok (vx, rx) =>
              match pr n (if vx = 0 then t else f) sN with
              | .ok (vb, rb) => (.ok (vb, rx ++ rb) : Except EErr (Int × List Cell))
              | .error err => .error err
            | .error err => .error err) = .ok (v, rds)
          rw [hX]
          show (match pr n (if vx = 0 then t else f) sN with
            | .ok (vb, rb) => (.ok (vb, rx ++ rb) : Except EErr (Int × List Cell))
            | .error err => .error err) = .ok (v, rds)
          rw [hBr]
          exact h
    | untrack inner => exact Bool.noConfusion hnu

/-- A `set` with a changed value marks every direct dependent of the
state stale. -/
theorem stateSet_marks_direct (s : Nat) (v : Int) (sys : Sys)
    (hvv : ¬ sys.stateVal s = v) (c : Nat) (hdep : c ∈ sys.stateDeps s) :
    c ∉ (stateSet s v sys).freshL := by
  intro hmem
  simp only [stateSet] at hmem
  rw [if_neg hvv, notifyList_freshL] at hmem
  exact (markMany_complete _ _ _ (Nat.le_refl _)).1 c hdep hmem

/-- When a `set` flips a computed stale, every dependent of that
computed goes stale in the same walk. -/
theorem stateSet_flip_deps (s : Nat) (v : Int) (sys : Sys)
    (c' : Nat) (hf : c' ∈ sys.freshL) (hnf : c' ∉ (stateSet s v sys).freshL)
    (c : Nat) (hdep : c ∈ sys.compDeps c') :
    c ∉ (stateSet s v sys).freshL := by
  by_cases hvv : sys.stateVal s = v
  · simp only [stateSet] at hnf
    rw [if_pos hvv] at hnf
    exact absurd hf hnf
  · simp only [stateSet] at hnf ⊢
    rw [if_neg hvv, notifyList_freshL] at hnf ⊢
    exact (markMany_complete _ (sys.stateDeps s)
      { sys with stateVal := updF sys.stateVal s v } (Nat.le_refl _)).2 c' hf hnf c hdep

/-- The survivor property: a computed still fresh after a `set` has an
unchanged from-scratch evaluation — the walk would have marked it if its
value could depend on the written state. -/
theorem stateSet_survivor_pr (s : Nat) (v : Int) (sys : Sys) (hinv : Inv sys) :
    ∀ c, c ∈ (stateSet s v sys).freshL →
    ∀ f w rds, pr f (sys.comp c) sys = .ok (w, rds) →
      pr f (sys.comp c) (stateSet s v sys) = .ok (w, rds) := by
  intro c
  induction c using Nat.strong_induction_on with
  | _ c IH =>
    intro hcf f w rds hpr
    have hcfO : c ∈ sys.freshL := stateSet_fresh_anti s v sys c hcf
    rcases hinv.fo c hcfO with ⟨f0, v0, rds0, hpr0, hval0, hsrc0⟩
    have hrdseq : rds = rds0 := congrArg Prod.snd (pr_agree hpr hpr0)
    refine pr_congr (stateSet s v sys) sys (setOnly_comp (stateSet_setOnly s v sys))
      (setOnly_isBody (stateSet_setOnly s v sys))
      (fun s' => (stateSet s v sys).stateVal s' = sys.stateVal s')
      (fun c' => c' < c ∧ c' ∈ (stateSet s v sys).freshL)
      (fun s' hgs => hgs) ?_ f (sys.comp c) (hinv.nu c) w rds hpr ?_ ?_
    · intro c' hgc f' v' rds' hprO
      have hstep := IH c' hgc.1 hgc.2 f' v' rds' hprO
      rw [setOnly_comp (stateSet_setOnly s v sys)]
      exact hstep
    · intro s' hm
      have hsrc : Cell.st s' ∈ sys.sources c := by
        rw [hsrc0, mem_collect, ← hrdseq]
        exact hm
      by_cases hvv : sys.stateVal s = v
      · show (stateSet s v sys).stateVal s' = sys.stateVal s'
        simp only [stateSet]
        rw [if_pos hvv]
      · have hne : s' ≠ s := by
          intro he
          subst he
          have hdep : c ∈ sys.stateDeps s' := (hinv.rp.1 s' c).mpr hsrc
          exact stateSet_marks_direct s' v sys hvv c hdep hcf
        show (stateSet s v sys).stateVal s' = sys.stateVal s'
        simp only [stateSet]
        rw [if_neg hvv]
        rw [markOnly_stateVal (notifyList_markOnly _ _),
          markOnly_stateVal (markMany_markOnly _ _ _)]
        show updF sys.stateVal s v s' = sys.stateVal s'
        exact updF_ne _ _ _ _ hne
    · intro c' hm
      have hsrcC : Cell.cp c' ∈ sys.sources c := by
        rw [hsrc0, mem_collect, ← hrdseq]
        exact hm
      have hlt : c' < c := hinv.sb c c' hsrcC
      have hfO : c' ∈ sys.freshL := hinv.fd c hcfO c' hsrcC
      have hfN : c' ∈ (stateSet s v sys).freshL := by
        by_contra hnf
        have hdepc : c ∈ sys.compDeps c' := (hinv.rp.2 c' c).mpr hsrcC
        exact stateSet_flip_deps s v sys c' hfO hnf c hdepc hcf
      exact ⟨hlt, hfN⟩

/-- `State.set` preserves the cache-consistency invariant. -/
theorem stateSet_inv (s : Nat) (v : Int) (sys : Sys) (hinv : Inv sys) :
    Inv (stateSet s v sys) := by
  have hso := stateSet_setOnly s v sys
  refine ⟨?_, ?_, setOnly_recip hso hinv.rp, ?_, ?_, ?_⟩
  · intro c
    rw [setOnly_comp hso]
    exact hinv.wf c
  · intro c
    rw [setOnly_comp hso]
    exact hinv.nu c
  · intro c c' hm
    rw [setOnly_sources hso] at hm
    exact hinv.sb c c' hm
  · intro c hcf c' hm
    rw [setOnly_sources hso] at hm
    have hcfO := stateSet_fresh_anti s v sys c hcf
    have hfO := hinv.fd c hcfO c' hm
    by_contra hnf
    have hdepc : c ∈ sys.compDeps c' := (hinv.rp.2 c' c).mpr hm
    exact stateSet_flip_deps s v sys c' hfO hnf c hdepc hcf
  · intro c hcf
    have hcfO := stateSet_fresh_anti s v sys c hcf
    rcases hinv.fo c hcfO with ⟨f0, v0, rds0, hpr0, hval0, hsrc0⟩
    refine ⟨f0, v0, rds0, ?_, ?_, ?_⟩
    · have hstep := stateSet_survivor_pr s v sys hinv c hcf f0 v0 rds0 hpr0
      rw [setOnly_comp hso]
      exact hstep
    · rw [setOnly_value hso, setOnly_isBody hso]
      exact hval0
    · rw [setOnly_sources hso]
      exact hsrc0

/-- A whole turn of `set` calls preserves the invariant. -/
theorem applySets_inv (l : List (Nat × Int)) : ∀ sys : Sys, Inv sys →
    Inv (applySets l sys) := by
  induction l with
  | nil => intro sys h; exact h
  | cons p l ih => intro sys h; exact ih _ (stateSet_inv p.1 p.2 sys h)

theorem csOnly_stateVal {a b : Sys} (h : CSOnly a b) : b.stateVal = a.stateVal := by
  rw [h]

theorem csOnly_isBody {a b : Sys} (h : CSOnly a b) : b.isBody = a.isBody := by rw [h]

theorem recip_eqs {a b : Sys} (hsd : b.stateDeps = a.stateDeps)
    (hcd : b.compDeps = a.compDeps) (hsrc : b.sources = a.sources)
    (h : Recip a) : Recip b := by
  constructor
  · intro s c
    rw [hsd, hsrc]
    exact h.1 s c
  · intro c' c
    rw [hcd, hsrc]
    exact h.2 c' c

/-- The invariant only reads the pure core, the caches, the source sets
and the dependent sets: it transports along field equalities. -/
theorem inv_transport {a b : Sys} (h : Inv a)
    (hv : b.stateVal = a.stateVal) (hc : b.comp = a.comp) (hbdy : b.isBody = a.isBody)
    (hval : b.value = a.value) (hsrc : b.sources = a.sources)
    (hfr : b.freshL = a.freshL) (hsd : b.stateDeps = a.stateDeps)
    (hcd : b.compDeps = a.compDeps) : Inv b := by
  refine ⟨?_, ?_, recip_eqs hsd hcd hsrc h.rp, ?_, ?_, ?_⟩
  · intro c
    rw [hc]
    exact h.wf c
  · intro c
    rw [hc]
    exact h.nu c
  · intro c c' hm
    rw [hsrc] at hm
    exact h.sb c c' hm
  · intro c hcf c' hm
    rw [hfr] at hcf
    rw [hsrc] at hm
    rw [hfr]
    exact h.fd c hcf c' hm
  · intro c hcf
    rw [hfr] at hcf
    rcases h.fo c hcf with ⟨f, v, rds, hpr, hvalc, hsrcc⟩
    refine ⟨f, v, rds, ?_, ?_, ?_⟩
    · rw [hc, pr_ext b a hv hc hbdy f (a.comp c)]
      exact hpr
    · rw [hval, hbdy]
      exact hvalc
    · rw [hsrc]
      exact hsrcc

/-- Registering one tracked-read edge into a stale context computed
preserves the invariant. -/
theorem inv_addEdge (sys b : Sys) (d : Nat) (x : Cell) (hinv : Inv sys)
    (hdst : d ∉ sys.freshL)
    (hsrcEq : b.sources = updF sys.sources d (addCell x (sys.sources d)))
    (hv : b.stateVal = sys.stateVal) (hc : b.comp = sys.comp)
    (hbdy : b.isBody = sys.isBody) (hval : b.value = sys.value)
    (hfr : b.freshL = sys.freshL) (hrp : Recip b)
    (hlt : ∀ c', x = Cell.cp c' → c' < d) : Inv b := by
  refine ⟨?_, ?_, hrp, ?_, ?_, ?_⟩
  · intro c
    rw [hc]
    exact hinv.wf c
  · intro c
    rw [hc]
    exact hinv.nu c
  · intro c c'' hm
    rw [hsrcEq] at hm
    by_cases hcd : c = d
    · subst hcd
      rw [updF_same, mem_addCell_iff] at hm
      rcases hm with hm | hm
      · exact hlt c'' hm.symm
      · exact hinv.sb c c'' hm
    · rw [updF_ne _ _ _ _ hcd] at hm
      exact hinv.sb c c'' hm
  · intro c hcf c'' hm
    rw [hfr] at hcf
    have hcd : c ≠ d := fun he => hdst (he ▸ hcf)
    rw [hsrcEq, updF_ne _ _ _ _ hcd] at hm
    rw [hfr]
    exact hinv.fd c hcf c'' hm
  · intro c hcf
    rw [hfr] at hcf
    have hcd : c ≠ d := fun he => hdst (he ▸ hcf)
    rcases hinv.fo c hcf with ⟨f, v, rds, hpr, hvalc, hsrcc⟩
    refine ⟨f, v, rds, ?_, ?_, ?_⟩
    · rw [hc, pr_ext b sys hv hc hbdy f (sys.comp c)]
      exact hpr
    · rw [hval, hbdy]
      exact hvalc
    · rw [hsrcEq, updF_ne _ _ _ _ hcd]
      exact hsrcc

theorem stateGet_none (s : Nat) (sys : Sys) (hcx : sys.ctx = none) :
    (stateGet s sys).2 = sys := by
  unfold stateGet
  rw [hcx]

theorem stateGet_sources_some (s d : Nat) (sys : Sys) (hcx : sys.ctx = some d) :
    (stateGet s sys).2.sources = updF sys.sources d (addCell (.st s) (sys.sources d)) := by
  unfold stateGet
  rw [hcx]

theorem regEdge_none (c : Nat) (sys : Sys) (hcx : sys.ctx = none) :
    regEdge c sys = sys := by
  unfold regEdge
  rw [hcx]

theorem regEdge_sources_some (c d : Nat) (sys : Sys) (hcx : sys.ctx = some d) :
    (regEdge c sys).sources = updF sys.sources d (addCell (.cp c) (sys.sources d)) := by
  unfold regEdge
  rw [hcx]

/-- `State.get` preserves the invariant when any tracking context is a
stale computed. -/
theorem stateGet_inv (s : Nat) (sys : Sys) (hinv : Inv sys)
    (hctx : ∀ d, sys.ctx = some d → d ∉ sys.freshL) :
    Inv (stateGet s sys).2 := by
  cases hcx : sys.ctx with
  | none =>
    rw [stateGet_none s sys hcx]
    exact hinv
  | some d =>
    have hcs := stateGet_csOnly s sys
    refine inv_addEdge sys (stateGet s sys).2 d (.st s) hinv (hctx d hcx)
      (stateGet_sources_some s d sys hcx) (csOnly_stateVal hcs) (csOnly_comp hcs)
      (csOnly_isBody hcs) (csOnly_value hcs) (csOnly_freshL hcs)
      (stateGet_recip s sys hinv.rp) ?_
    intro c' he
    exact Cell.noConfusion he

/-- Registering a computed-read edge into a stale context computed
strictly above it preserves the invariant. -/
theorem regEdge_inv (c : Nat) (sys : Sys) (hinv : Inv sys)
    (hctx : ∀ d, sys.ctx = some d → c < d ∧ d ∉ sys.freshL) :
    Inv (regEdge c sys) := by
  cases hcx : sys.ctx with
  | none =>
    rw [regEdge_none c sys hcx]
    exact hinv
  | some d =>
    have hcs := regEdge_csOnly c sys
    refine inv_addEdge sys (regEdge c sys) d (.cp c) hinv (hctx d hcx).2
      (regEdge_sources_some c d sys hcx) (csOnly_stateVal hcs) (csOnly_comp hcs)
      (csOnly_isBody hcs) (csOnly_value hcs) (csOnly_freshL hcs)
      (regEdge_recip c sys hinv.rp) ?_
    intro c' he
    rw [← Cell.cp.inj he]
    exact (hctx d hcx).1

/-- The dependency-clearing pass on a stale computed preserves the
invariant. -/
theorem clearSources_inv (c : Nat) (sys : Sys) (hinv : Inv sys)
    (hst : c ∉ sys.freshL) : Inv (clearSources c sys) := by
  have hcs := clearSources_csOnly c sys
  refine ⟨?_, ?_, clearSources_recip c sys hinv.rp, ?_, ?_, ?_⟩
  · intro x
    rw [csOnly_comp hcs]
    exact hinv.wf x
  · intro x
    rw [csOnly_comp hcs]
    exact hinv.nu x
  · intro x c'' hm
    rw [clearSources_sources] at hm
    by_cases hxc : x = c
    · rw [if_pos hxc] at hm
      exact absurd hm (List.not_mem_nil _)
    · rw [if_neg hxc] at hm
      exact hinv.sb x c'' hm
  · intro x hxf c'' hm
    rw [csOnly_freshL hcs] at hxf
    have hxc : x ≠ c := fun he => hst (he ▸ hxf)
    rw [clearSources_sources, if_neg hxc] at hm
    rw [csOnly_freshL hcs]
    exact hinv.fd x hxf c'' hm
  · intro x hxf
    rw [csOnly_freshL hcs] at hxf
    have hxc : x ≠ c := fun he => hst (he ▸ hxf)
    rcases hinv.fo x hxf with ⟨f, v, rds, hpr, hvalc, hsrcc⟩
    refine ⟨f, v, rds, ?_, ?_, ?_⟩
    · rw [csOnly_comp hcs,
        pr_ext (clearSources c sys) sys (csOnly_stateVal hcs) (csOnly_comp hcs)
          (csOnly_isBody hcs) f (sys.comp x)]
      exact hpr
    · rw [csOnly_value hcs, csOnly_isBody hcs]
      exact hvalc
    · rw [clearSources_sources, if_neg hxc]
      exact hsrcc

/-- A successful recomputation writes a cache that satisfies the
invariant: the stored value is the from-scratch value, the rebuilt
source set is exactly the read list, and every computed source was left
fresh by its own nested read. -/
theorem inv_complete_rc (s5 : Sys) (prev : Option Nat) (c : Nat) (v1 : Int)
    (rds : List Cell) (f : Nat)
    (hinv5 : Inv s5) (hst5 : c ∉ s5.freshL)
    (hpr5 : pr f (s5.comp c) s5 = .ok (v1, rds))
    (hsrcc : s5.sources c = collect rds)
    (hfr : ∀ c', Cell.cp c' ∈ rds → c' ∈ s5.freshL) :
    Inv { s5 with
      value := updF s5.value c (some (if s5.isBody c then 0 else v1)),
      freshL := addN c s5.freshL,
      destr := if s5.isBody c then updF s5.destr c (s5.retClean c) else s5.destr,
      ctx := prev } := by
  refine ⟨?_, ?_, recip_eqs rfl rfl rfl hinv5.rp, ?_, ?_, ?_⟩
  · intro x
    exact hinv5.wf x
  · intro x
    exact hinv5.nu x
  · intro x c'' hm
    exact hinv5.sb x c'' hm
  · intro x hxf c'' hm
    replace hxf : x ∈ addN c s5.freshL := hxf
    rw [mem_addN_iff] at hxf
    show c'' ∈ addN c s5.freshL
    rw [mem_addN_iff]
    rcases hxf with hxc | hxf
    · subst hxc
      replace hm : Cell.cp c'' ∈ s5.sources x := hm
      rw [hsrcc, mem_collect] at hm
      exact Or.inr (hfr c'' hm)
    · exact Or.inr (hinv5.fd x hxf c'' hm)
  · intro x hxf
    replace hxf : x ∈ addN c s5.freshL := hxf
    rw [mem_addN_iff] at hxf
    have hpe := pr_ext { s5 with
      value := updF s5.value c (some (if s5.isBody c then 0 else v1)),
      freshL := addN c s5.freshL,
      destr := if s5.isBody c then updF s5.destr c (s5.retClean c) else s5.destr,
      ctx := prev } s5 rfl rfl rfl
    by_cases hxc : x = c
    · subst hxc
      refine ⟨f, v1, rds, ?_, ?_, ?_⟩
      · rw [hpe f]
        exact hpr5
      · show updF s5.value x (some (if s5.isBody x then 0 else v1)) x =
          some (if s5.isBody x then 0 else v1)
        rw [updF_same]
      · exact hsrcc
    · have hxf5 : x ∈ s5.freshL := by
        rcases hxf with h1 | h1
        · exact absurd h1 hxc
        · exact h1
      rcases hinv5.fo x hxf5 with ⟨f0, v0, rds0, hpr0, hval0, hsrc0⟩
      refine ⟨f0, v0, rds0, ?_, ?_, ?_⟩
      · rw [hpe f0]
        exact hpr0
      · show updF s5.value c (some (if s5.isBody c then 0 else v1)) x =
          some (if s5.isBody x then 0 else v0)
        rw [updF_ne _ _ _ _ hxc]
        exact hval0
      · exact hsrc0

/-- Simulation of the engine by the from-scratch evaluator on
untrack-free, invariant-satisfying systems: every engine call preserves
the invariant, and a normally-returning call produces the from-scratch
value, building exactly the read list into the context's source set. -/
theorem sim (fuel : Nat) : ∀ (sys : Sys), Inv sys →
    (∀ e, noUn e = true → TrackOK sys e →
      Inv (run fuel (.ev e) sys).2 ∧
      (∀ w, (run fuel (.ev e) sys).1 = .ok w →
        ∃ f rds, pr f e sys = .ok (w, rds) ∧
          (∀ d, sys.ctx = some d →
            (run fuel (.ev e) sys).2.sources d =
              rds.foldl (fun acc x => addCell x acc) (sys.sources d)) ∧
          (∀ c', Cell.cp c' ∈ rds → c' ∈ (run fuel (.ev e) sys).2.freshL))) ∧
    (∀ c, (∀ d, sys.ctx = some d → c < d ∧ d ∉ sys.freshL) →
      Inv (run fuel (.get c) sys).2 ∧
      (∀ w, (run fuel (.get c) sys).1 = .ok w →
        ∃ f v rds, pr f (sys.comp c) sys = .ok (v, rds) ∧
          w = (if sys.isBody c then 0 else v) ∧
          (∀ d, sys.ctx = some d →
            (run fuel (.get c) sys).2.sources d = addCell (.cp c) (sys.sources d)) ∧
          c ∈ (run fuel (.get c) sys).2.freshL)) ∧
    (∀ c, c ∉ sys.freshL →
      Inv (run fuel (.rc c) sys).2 ∧
      (∀ w, (run fuel (.rc c) sys).1 = .ok w →
        ∃ f rds, pr f (sys.comp c) sys = .ok (w, rds) ∧
          (run fuel (.rc c) sys).2.value c = some (if sys.isBody c then 0 else w) ∧
          c ∈ (run fuel (.rc c) sys).2.freshL)) := by
  induction fuel with
  | zero =>
    intro sys hinv
    exact ⟨fun e _ _ => ⟨hinv, fun w hw => Except.noConfusion hw⟩,
      fun c _ => ⟨hinv, fun w hw => Except.noConfusion hw⟩,
      fun c _ => ⟨hinv, fun w hw => Except.noConfusion hw⟩⟩
  | succ n IH =>
    intro sys hinv
    refine ⟨?_, ?_, ?_⟩
    · -- expression evaluation
      intro e hnu htr
      cases e with
      | lit v =>
        refine ⟨hinv, ?_⟩
        intro w hw
        replace hw : v = w := Except.ok.inj hw
        subst hw
        exact ⟨1, [], rfl, fun d _ => rfl, fun c' hm => absurd hm (List.not_mem_nil _)⟩
      | throwE =>
        exact ⟨hinv, fun w hw => Except.noConfusion hw⟩
      | readS s =>
        constructor
        · show Inv (stateGet s sys).2
          exact stateGet_inv s sys hinv (fun d hd => (htr d hd).2)
        · intro w hw
          replace hw : (stateGet s sys).1 = w := Except.ok.inj hw
          rw [stateGet_val] at hw
          subst hw
          refine ⟨1, [Cell.st s], rfl, ?_, ?_⟩
          · intro d hd
            show (stateGet s sys).2.sources d = addCell (.st s) (sys.sources d)
            rw [stateGet_sources_some s d sys hd, updF_same]
          · intro c' hm
            exact absurd hm (by simp)
      | readC c =>
        have hget := (IH sys hinv).2.1 c (fun d hd => by
          have h1 := htr d hd
          exact ⟨of_decide_eq_true h1.1, h1.2⟩)
        constructor
        · exact hget.1
        · intro w hw
          rcases hget.2 w hw with ⟨f, v, rds, hpr, hwv, hsrc, hfr⟩
          refine ⟨f + 1, [Cell.cp c], ?_, ?_, ?_⟩
          · show (match pr f (sys.comp c) sys with
              | .ok (v0, _) => (.ok ((if sys.isBody c then 0 else v0), [Cell.cp c]) :
                  Except EErr (Int × List Cell))
              | .error err => .error err) = .ok (w, [Cell.cp c])
            rw [hpr, hwv]
          · intro d hd
            exact hsrc d hd
          · intro c'' hm
            have hcc : c'' = c := by
              rw [List.mem_singleton] at hm
              exact Cell.cp.inj hm
            rw [hcc]
            exact hfr
      | add a b =>
        have hnu2 : noUn a = true ∧ noUn b = true := by
          simpa [noUn, Bool.and_eq_true] using hnu
        have hrb2 : ∀ d, sys.ctx = some d →
            readsBelow d a = true ∧ readsBelow d b = true := by
          intro d hd
          have h1 := (htr d hd).1
          simpa [readsBelow, Bool.and_eq_true] using h1
        simp only [run]
        rcases hr1 : run n (.ev a) sys with ⟨r1, s1⟩
        have iha := (IH sys hinv).1 a hnu2.1 (fun d hd => ⟨(hrb2 d hd).1, (htr d hd).2⟩)
        rw [hr1] at iha
        have hsh1 := run_shape n (.ev a) sys
        rw [hr1] at hsh1
        cases r1 with
        | error err =>
          exact ⟨iha.1, fun w hw => Except.noConfusion hw⟩
        | ok v1 =>
          rcases hr2 : run n (.ev b) s1 with ⟨r2, s2⟩
          have htrb : TrackOK s1 b := by
            intro d hd
            rw [hsh1.2.1] at hd
            refine ⟨(hrb2 d hd).2, ?_⟩
            have hvf := run_valueFrame n (.ev a) sys d hinv.wf (hrb2 d hd).1 d
              (Nat.le_refl d)
            rw [hr1] at hvf
            intro hdf
            exact (htr d hd).2 (hvf.2.1.mp hdf)
          have ihb := (IH s1 iha.1).1 b hnu2.2 htrb
          rw [hr2] at ihb
          have hsh2 := run_shape n (.ev b) s1
          rw [hr2] at hsh2
          cases r2 with
          | error err =>
            have hT : (andThen ((Except.ok v1 : Except EErr Int), s1) fun va sys1 =>
                andThen (run n (.ev b) sys1) fun vb sys2 =>
                  ((Except.ok (va + vb) : Except EErr Int), sys2)) =
                ((Except.error err : Except EErr Int), s2) := by
              show (andThen (run n (.ev b) s1) fun vb sys2 =>
                ((Except.ok (v1 + vb) : Except EErr Int), sys2)) = (.error err, s2)
              rw [hr2]
              rfl
            rw [hT]
            exact ⟨ihb.1, fun w hw => Except.noConfusion hw⟩
          | ok v2 =>
            have hT : (andThen ((Except.ok v1 : Except EErr Int), s1) fun va sys1 =>
                andThen (run n (.ev b) sys1) fun vb sys2 =>
                  ((Except.ok (va + vb) : Except EErr Int), sys2)) =
                ((Except.ok (v1 + v2) : Except EErr Int), s2) := by
              show (andThen (run n (.ev b) s1) fun vb sys2 =>
                ((Except.ok (v1 + vb) : Except EErr Int), sys2)) = (.ok (v1 + v2), s2)
              rw [hr2]
              rfl
            rw [hT]
            refine ⟨ihb.1, ?_⟩
            intro w hw
            replace hw : v1 + v2 = w := Except.ok.inj hw
            rcases iha.2 v1 rfl with ⟨f1, rds1, hpra, hsrca, hfra⟩
            rcases ihb.2 v2 rfl with ⟨f2, rds2, hprb, hsrcb, hfrb⟩
            have hprb2 : pr f2 b sys = .ok (v2, rds2) := by
              rw [← pr_ext s1 sys (runOnly_stateVal hsh1.1) (runOnly_comp hsh1.1)
                (runOnly_isBody hsh1.1) f2 b]
              exact hprb
            have hA := pr_mono_le (Nat.le_max_left f1 f2) a sys _ hpra
            have hB := pr_mono_le (Nat.le_max_right f1 f2) b sys _ hprb2
            refine ⟨max f1 f2 + 1, rds1 ++ rds2, ?_, ?_, ?_⟩
            · show (match pr (max f1 f2) a sys with
                | .ok (va, ra) =>
                  match pr (max f1 f2) b sys with
                  | .ok (vb, rb) =>
                    (.ok (va + vb, ra ++ rb) : Except EErr (Int × List Cell))
                  | .error err => .error err
                | .error err => .error err) = .ok (w, rds1 ++ rds2)
              rw [hA]
              show (match pr (max f1 f2) b sys with
                | .ok (vb, rb) =>
                  (.ok (v1 + vb, rds1 ++ rb) : Except EErr (Int × List Cell))
                | .error err => .error err) = .ok (w, rds1 ++ rds2)
              rw [hB]
              show (Except.ok (v1 + v2, rds1 ++ rds2) :
                Except EErr (Int × List Cell)) = .ok (w, rds1 ++ rds2)
              rw [hw]
            · intro d hd
              have hd1 : s1.ctx = some d := by
                rw [hsh1.2.1]
                exact hd
              rw [hsrcb d hd1, hsrca d hd, List.foldl_append]
            · intro c' hm
              rw [List.mem_append] at hm
              rcases hm with hm | hm
              · exact hsh2.2.2 c' (hfra c' hm)
              · exact hfrb c' hm
      | mul a b =>
        have hnu2 : noUn a = true ∧ noUn b = true := by
          simpa [noUn, Bool.and_eq_true] using hnu
        have hrb2 : ∀ d, sys.ctx = some d →
            readsBelow d a = true ∧ readsBelow d b = true := by
          intro d hd
          have h1 := (htr d hd).1
          simpa [readsBelow, Bool.and_eq_true] using h1
        simp only [run]
        rcases hr1 : run n (.ev a) sys with ⟨r1, s1⟩
        have iha := (IH sys hinv).1 a hnu2.1 (fun d hd => ⟨(hrb2 d hd).1, (htr d hd).2⟩)
        rw [hr1] at iha
        have hsh1 := run_shape n (.ev a) sys
        rw [hr1] at hsh1
        cases r1 with
        | error err =>
          exact ⟨iha.1, fun w hw => Except.noConfusion hw⟩
        | ok v1 =>
          rcases hr2 : run n (.ev b) s1 with ⟨r2, s2⟩
          have htrb : TrackOK s1 b := by
            intro d hd
            rw [hsh1.2.1] at hd
            refine ⟨(hrb2 d hd).2, ?_⟩
            have hvf := run_valueFrame n (.ev a) sys d hinv.wf (hrb2 d hd).1 d
              (Nat.le_refl d)
            rw [hr1] at hvf
            intro hdf
            exact (htr d hd).2 (hvf.2.1.mp hdf)
          have ihb := (IH s1 iha.1).1 b hnu2.2 htrb
          rw [hr2] at ihb
          have hsh2 := run_shape n (.ev b) s1
          rw [hr2] at hsh2
          cases r2 with
          | error err =>
            have hT : (andThen ((Except.ok v1 : Except EErr Int), s1) fun va sys1 =>
                andThen (run n (.ev b) sys1) fun vb sys2 =>
                  ((Except.ok (va * vb) : Except EErr Int), sys2)) =
                ((Except.error err : Except EErr Int), s2) := by
              show (andThen (run n (.ev b) s1) fun vb sys2 =>
                ((Except.ok (v1 * vb) : Except EErr Int), sys2)) = (.error err, s2)
              rw [hr2]
              rfl
            rw [hT]
            exact ⟨ihb.1, fun w hw => Except.noConfusion hw⟩
          | ok v2 =>
            have hT : (andThen ((Except.ok v1 : Except EErr Int), s1) fun va sys1 =>
                andThen (run n (.ev b) sys1) fun vb sys2 =>
                  ((Except.ok (va * vb) : Except EErr Int), sys2)) =
                ((Except.ok (v1 * v2) : Except EErr Int), s2) := by
              show (andThen (run n (.ev b) s1) fun vb sys2 =>
                ((Except.ok (v1 * vb) : Except EErr Int), sys2)) = (.ok (v1 * v2), s2)
              rw [hr2]
              rfl
            rw [hT]
            refine ⟨ihb.1, ?_⟩
            intro w hw
            replace hw : v1 * v2 = w := Except.ok.inj hw
            rcases iha.2 v1 rfl with ⟨f1, rds1, hpra, hsrca, hfra⟩
            rcases ihb.2 v2 rfl with ⟨f2, rds2, hprb, hsrcb, hfrb⟩
            have hprb2 : pr f2 b sys = .ok (v2, rds2) := by
              rw [← pr_ext s1 sys (runOnly_stateVal hsh1.1) (runOnly_comp hsh1.1)
                (runOnly_isBody hsh1.1) f2 b]
              exact hprb
            have hA := pr_mono_le (Nat.le_max_left f1 f2) a sys _ hpra
            have hB := pr_mono_le (Nat.le_max_right f1 f2) b sys _ hprb2
            refine ⟨max f1 f2 + 1, rds1 ++ rds2, ?_, ?_, ?_⟩
            · show (match pr (max f1 f2) a sys with
                | .ok (va, ra) =>
                  match pr (max f1 f2) b sys with
                  | .ok (vb, rb) =>
                    (.ok (va * vb, ra ++ rb) : Except EErr (Int × List Cell))
                  | .error err => .error err
                | .error err => .error err) = .ok (w, rds1 ++ rds2)
              rw [hA]
              show (match pr (max f1 f2) b sys with
                | .ok (vb, rb) =>
                  (.ok (v1 * vb, rds1 ++ rb) : Except EErr (Int × List Cell))
                | .error err => .error err) = .ok (w, rds1 ++ rds2)
              rw [hB]
              show (Except.ok (v1 * v2, rds1 ++ rds2) :
                Except EErr (Int × List Cell)) = .ok (w, rds1 ++ rds2)
              rw [hw]
            · intro d hd
              have hd1 : s1.ctx = some d := by
                rw [hsh1.2.1]
                exact hd
              rw [hsrcb d hd1, hsrca d hd, List.foldl_append]
            · intro c' hm
              rw [List.mem_append] at hm
              rcases hm with hm | hm
              · exact hsh2.2.2 c' (hfra c' hm)
              · exact hfrb c' hm
      | ifz x t f =>
        have hnu3 : (noUn x = true ∧ noUn t = true) ∧ noUn f = true := by
          simpa [noUn, Bool.and_eq_true] using hnu
        have hrb3 : ∀ d, sys.ctx = some d →
            (readsBelow d x = true ∧ readsBelow d t = true) ∧ readsBelow d f = true := by
          intro d hd
          have h1 := (htr d hd).1
          simpa [readsBelow, Bool.and_eq_true] using h1
        simp only [run]
        rcases hr1 : run n (.ev x) sys with ⟨r1, s1⟩
        have iha := (IH sys hinv).1 x hnu3.1.1
          (fun d hd => ⟨(hrb3 d hd).1.1, (htr d hd).2⟩)
        rw [hr1] at iha
        have hsh1 := run_shape n (.ev x) sys
        rw [hr1] at hsh1
        cases r1 with
        | error err =>
          exact ⟨iha.1, fun w hw => Except.noConfusion hw⟩
        | ok v1 =>
          have hnuBr : noUn (if v1 = 0 then t else f) = true := by
            by_cases hv0 : v1 = 0 <;> simp [hv0, hnu3.1.2, hnu3.2]
          have hrbBr : ∀ d, sys.ctx = some d →
              readsBelow d (if v1 = 0 then t else f) = true := by
            intro d hd
            by_cases hv0 : v1 = 0 <;> simp [hv0, (hrb3 d hd).1.2, (hrb3 d hd).2]
          rcases hr2 : run n (.ev (if v1 = 0 then t else f)) s1 with ⟨r2, s2⟩
          have htrb : TrackOK s1 (if v1 = 0 then t else f) := by
            intro d hd
            rw [hsh1.2.1] at hd
            refine ⟨hrbBr d hd, ?_⟩
            have hvf := run_valueFrame n (.ev x) sys d hinv.wf (hrb3 d hd).1.1 d
              (Nat.le_refl d)
            rw [hr1] at hvf
            intro hdf
            exact (htr d hd).2 (hvf.2.1.mp hdf)
          have ihb := (IH s1 iha.1).1 (if v1 = 0 then t else f) hnuBr htrb
          rw [hr2] at ihb
          have hsh2 := run_shape n (.ev (if v1 = 0 then t else f)) s1
          rw [hr2] at hsh2
          have hT : (andThen ((Except.ok v1 : Except EErr Int), s1) fun vx sys1 =>
              run n (.ev (if vx = 0 then t else f)) sys1) = (r2, s2) := by
            show run n (.ev (if v1 = 0 then t else f)) s1 = (r2, s2)
            rw [hr2]
          rw [hT]
          cases r2 with
          | error err =>
            exact ⟨ihb.1, fun w hw => Except.noConfusion hw⟩
          | ok v2 =>
            refine ⟨ihb.1, ?_⟩
            intro w hw
            replace hw : v2 = w := Except.ok.inj hw
            rcases iha.2 v1 rfl with ⟨f1, rds1, hpra, hsrca, hfra⟩
            rcases ihb.2 v2 rfl with ⟨f2, rds2, hprb, hsrcb, hfrb⟩
            have hprb2 : pr f2 (if v1 = 0 then t else f) sys = .ok (v2, rds2) := by
              rw [← pr_ext s1 sys (runOnly_stateVal hsh1.1) (runOnly_comp hsh1.1)
                (runOnly_isBody hsh1.1) f2 (if v1 = 0 then t else f)]
              exact hprb
            have hA := pr_mono_le (Nat.le_max_left f1 f2) x sys _ hpra
            have hB := pr_mono_le (Nat.le_max_right f1 f2)
              (if v1 = 0 then t else f) sys _ hprb2
            refine ⟨max f1 f2 + 1, rds1 ++ rds2, ?_, ?_, ?_⟩
            · show (match pr (max f1 f2) x sys with
                | .ok (vx, rx) =>
                  match pr (max f1 f2) (if vx = 0 then t else f) sys with
                  | .ok (vb, rb) => (.ok (vb, rx ++ rb) : Except EErr (Int × List Cell))
                  | .error err => .error err
                | .error err => .error err) = .ok (w, rds1 ++ rds2)
              rw [hA]
              show (match pr (max f1 f2) (if v1 = 0 then t else f) sys with
                | .ok (vb, rb) => (.ok (vb, rds1 ++ rb) : Except EErr (Int × List Cell))
                | .error err => .error err) = .ok (w, rds1 ++ rds2)
              rw [hB]
              show (Except.ok (v2, rds1 ++ rds2) :
                Except EErr (Int × List Cell)) = .ok (w, rds1 ++ rds2)
              rw [hw]
            · intro d hd
              have hd1 : s1.ctx = some d := by
                rw [hsh1.2.1]
                exact hd
              rw [hsrcb d hd1, hsrca d hd, List.foldl_append]
            · intro c' hm
              rw [List.mem_append] at hm
              rcases hm with hm | hm
              · exact hsh2.2.2 c' (hfra c' hm)
              · exact hfrb c' hm
      | untrack inner => exact Bool.noConfusion hnu
    · -- Computed.get
      intro c hc
      simp only [run]
      by_cases hf : c ∈ sys.freshL
      · rw [if_pos hf]
        constructor
        · show Inv (regEdge c sys)
          exact regEdge_inv c sys hinv hc
        · intro w hw
          replace hw : ((regEdge c sys).value c).getD 0 = w := Except.ok.inj hw
          rw [csOnly_value (regEdge_csOnly c sys)] at hw
          rcases hinv.fo c hf with ⟨f0, v0, rds0, hpr0, hval0, hsrc0⟩
          rw [hval0] at hw
          replace hw : (if sys.isBody c then 0 else v0) = w := hw
          refine ⟨f0, v0, rds0, hpr0, hw.symm, ?_, ?_⟩
          · intro d hd
            show (regEdge c sys).sources d = addCell (.cp c) (sys.sources d)
            rw [regEdge_sources_some c d sys hd, updF_same]
          · show c ∈ (regEdge c sys).freshL
            rw [csOnly_freshL (regEdge_csOnly c sys)]
            exact hf
      · rw [if_neg hf]
        have ihrc := (IH sys hinv).2.2 c hf
        rcases hr : run n (.rc c) sys with ⟨rr, s1⟩
        rw [hr] at ihrc
        have hsh := run_shape n (.rc c) sys
        rw [hr] at hsh
        cases rr with
        | error err =>
          exact ⟨ihrc.1, fun w hw => Except.noConfusion hw⟩
        | ok v1 =>
          rcases ihrc.2 v1 rfl with ⟨f0, rds0, hpr0, hval1, hfr1⟩
          constructor
          · show Inv (regEdge c s1)
            refine regEdge_inv c s1 ihrc.1 ?_
            intro d hd
            rw [hsh.2.1] at hd
            refine ⟨(hc d hd).1, ?_⟩
            have hvf := run_valueFrame n (.rc c) sys d hinv.wf (hc d hd).1 d
              (Nat.le_refl d)
            rw [hr] at hvf
            intro hdf
            exact (hc d hd).2 (hvf.2.1.mp hdf)
          · intro w hw
            replace hw : ((regEdge c s1).value c).getD 0 = w := Except.ok.inj hw
            rw [csOnly_value (regEdge_csOnly c s1), hval1] at hw
            replace hw : (if sys.isBody c then 0 else v1) = w := hw
            refine ⟨f0, v1, rds0, hpr0, hw.symm, ?_, ?_⟩
            · intro d hd
              have hds : s1.sources d = sys.sources d := by
                have hdisc := (run_sources_discipline 0 n sys hinv.wf).2.2 c d (hc d hd).1
                rw [hr] at hdisc
                exact hdisc
              have hd1 : s1.ctx = some d := by
                rw [hsh.2.1]
                exact hd
              show (regEdge c s1).sources d = addCell (.cp c) (sys.sources d)
              rw [regEdge_sources_some c d s1 hd1, updF_same, hds]
            · show c ∈ (regEdge c s1).freshL
              rw [csOnly_freshL (regEdge_csOnly c s1)]
              exact hfr1
    · -- Computed recomputation
      intro c hstale
      have key : ∀ (prev : Option Nat) (S : Sys), Inv S → S.ctx = some c →
          c ∉ S.freshL → S.stateVal = sys.stateVal → S.comp = sys.comp →
          S.isBody = sys.isBody → S.sources c = [] →
          Inv (finishRec prev c (run n (.ev (S.comp c)) S)).2 ∧
          (∀ w, (finishRec prev c (run n (.ev (S.comp c)) S)).1 = .ok w →
            ∃ f rds, pr f (sys.comp c) sys = .ok (w, rds) ∧
              (finishRec prev c (run n (.ev (S.comp c)) S)).2.value c =
                some (if sys.isBody c then 0 else w) ∧
              c ∈ (finishRec prev c (run n (.ev (S.comp c)) S)).2.freshL) := by
        intro prev S hinvS hctxS hstS hsv hsc hsb2 hsrc
        have htrS : TrackOK S (S.comp c) := by
          intro d hd
          rw [hctxS] at hd
          have hdc : c = d := Option.some.inj hd
          subst hdc
          exact ⟨by rw [hsc]; exact hinv.wf c, hstS⟩
        have ihev := (IH S hinvS).1 (S.comp c) (by rw [hsc]; exact hinv.nu c) htrS
        rcases hr : run n (.ev (S.comp c)) S with ⟨r, s5⟩
        rw [hr] at ihev
        have hsh := run_shape n (.ev (S.comp c)) S
        rw [hr] at hsh
        cases r with
        | error err =>
          constructor
          · show Inv { s5 with ctx := prev }
            exact inv_transport ihev.1 rfl rfl rfl rfl rfl rfl rfl rfl
          · intro w hw
            exact Except.noConfusion hw
        | ok v1 =>
          rcases ihev.2 v1 rfl with ⟨f, rds, hpr, hsrcd, hfr⟩
          have hpr2 : pr f (sys.comp c) sys = .ok (v1, rds) := by
            rw [← hsc, ← pr_ext S sys hsv hsc hsb2 f (S.comp c)]
            exact hpr
          have hpr5 : pr f (s5.comp c) s5 = .ok (v1, rds) := by
            rw [runOnly_comp hsh.1,
              pr_ext s5 S (runOnly_stateVal hsh.1) (runOnly_comp hsh.1)
                (runOnly_isBody hsh.1) f (S.comp c)]
            exact hpr
          have hsrcc : s5.sources c = collect rds := by
            have h1 := hsrcd c hctxS
            rw [hsrc] at h1
            exact h1
          have hstS5 : c ∉ s5.freshL := by
            have hvf := run_valueFrame n (.ev (S.comp c)) S c hinvS.wf
              (by rw [hsc]; exact hinv.wf c) c (Nat.le_refl c)
            rw [hr] at hvf
            intro hcf5
            exact hstS (hvf.2.1.mp hcf5)
          constructor
          · show Inv { s5 with
              value := updF s5.value c (some (if s5.isBody c then 0 else v1)),
              freshL := addN c s5.freshL,
              destr := if s5.isBody c then updF s5.destr c (s5.retClean c)
                       else s5.destr,
              ctx := prev }
            exact inv_complete_rc s5 prev c v1 rds f ihev.1 hstS5 hpr5 hsrcc hfr
          · intro w hw
            replace hw : v1 = w := Except.ok.inj hw
            subst hw
            refine ⟨f, rds, hpr2, ?_, ?_⟩
            · show updF s5.value c (some (if s5.isBody c then 0 else v1)) c =
                some (if sys.isBody c then 0 else v1)
              rw [updF_same]
              have hib : s5.isBody = sys.isBody := by
                rw [runOnly_isBody hsh.1, hsb2]
              rw [hib]
            · show c ∈ addN c s5.freshL
              rw [mem_addN_iff]
              exact Or.inl rfl
      simp only [run]
      split <;>
      · exact key _ _
          (inv_transport (clearSources_inv c sys hinv hstale)
            rfl rfl rfl rfl rfl rfl rfl rfl)
          rfl
          (by
            show c ∉ (clearSources c sys).freshL
            rw [csOnly_freshL (clearSources_csOnly c sys)]
            exact hstale)
          (by
            show (clearSources c sys).stateVal = sys.stateVal
            exact csOnly_stateVal (clearSources_csOnly c sys))
          (by
            show (clearSources c sys).comp = sys.comp
            exact csOnly_comp (clearSources_csOnly c sys))
          (by
            show (clearSources c sys).isBody = sys.isBody
            exact csOnly_isBody (clearSources_csOnly c sys))
          (by
            show (clearSources c sys).sources c = []
            rw [clearSources_sources]
            exact if_pos rfl)

/-- C1 counterexample: computed 0 reads state 0 only inside untrack;
after `get` (caches 1) and `set(2)` (no dependency edge, so no
staleness), `get` serves the cached 1 while a fresh invocation of the
computation function against the current state values yields 2. -/
theorem c1_counterexample :
    (run 99 (.get 0) untrSys).1 = .ok 1 ∧
    pr 99 (untrSys.comp 0) untrSys = .ok (2, []) ∧
    (1 : Int) ≠ 2 :=
  ⟨rfl, rfl, by decide⟩

/-- C1 (corrected): restricted to untrack-free computations.  From any
invariant-satisfying quiescent system, after an arbitrary sequence of
`State.set` calls, a `Computed.get` that returns normally returns
exactly the value a from-scratch invocation of the computation function
against the current state values produces.  The unrestricted claim is
false: a cell read only inside `untrack` is absent from the source set,
so a `set` to it leaves a fresh cache that disagrees with a fresh
evaluation. -/
theorem c1_get_consistent_with_fresh_eval
    (sys : Sys) (l : List (Nat × Int)) (c F fuel : Nat) (w v : Int) (rds : List Cell)
    (hinv : Inv sys) (hctx : sys.ctx = none) (hbody : sys.isBody c = false)
    (hget : (run F (.get c) (applySets l sys)).1 = .ok w)
    (hpr : pr fuel ((applySets l sys).comp c) (applySets l sys) = .ok (v, rds)) :
    w = v := by
  have hinvO := applySets_inv l sys hinv
  have hso := applySets_setOnly l sys
  have hctxO : (applySets l sys).ctx = none := by
    rw [setOnly_ctx hso, hctx]
  have hsim := (sim F (applySets l sys) hinvO).2.1 c (fun d hd => by
    rw [hctxO] at hd
    exact Option.noConfusion hd)
  rcases hsim.2 w hget with ⟨f, v', rds', hpr', hwv', _, _⟩
  have hvv : v' = v := congrArg Prod.fst (pr_agree hpr' hpr)
  have hbO : (applySets l sys).isBody c = false := by
    rw [setOnly_isBody hso]
    exact hbody
  rw [hwv', hbO, hvv]
  simp

/-- C1 witness: the corrected theorem on the diamond graph from a fresh
initial system, one `set` turn, `D.get()` against the from-scratch
value 7. -/
theorem c1_witness :
    (run 99 (.get 2) (applySets [(0, 2)]
      (init diamondComp (fun _ => false) (fun _ => false) (fun _ => 1)))).1 =
        .ok 7 ∧
    pr 99 ((applySets [(0, 2)]
        (init diamondComp (fun _ => false) (fun _ => false) (fun _ => 1))).comp 2)
      (applySets [(0, 2)]
        (init diamondComp (fun _ => false) (fun _ => false) (fun _ => 1))) =
      .ok (7, [Cell.cp 0, Cell.cp 1]) ∧
    (7 : Int) = 7 := by
  refine ⟨rfl, rfl, ?_⟩
  have hinv : Inv (init diamondComp (fun _ => false) (fun _ => false) (fun _ => 1)) := by
    refine ⟨?_, ?_, init_recip _ _ _ _, ?_, ?_, ?_⟩
    · intro c
      rcases c with _ | _ | _ | n <;> rfl
    · intro c
      rcases c with _ | _ | _ | n <;> rfl
    · intro c c' hm
      exact absurd hm (List.not_mem_nil _)
    · intro c hcf
      exact absurd hcf (List.not_mem_nil _)
    · intro c hcf
      exact absurd hcf (List.not_mem_nil _)
  exact c1_get_consistent_with_fresh_eval
    (init diamondComp (fun _ => false) (fun _ => false) (fun _ => 1))
    [(0, 2)] 2 99 99 7 7 [Cell.cp 0, Cell.cp 1] hinv rfl rfl rfl rfl

end Signals
